import Mathlib

/-!
Verification development for the DSAlign core alignment primitives
(`align/text.py` and `align/utils.py`): position-preserving text
normalization, exact Levenshtein distance, token-interval utilities, the
bisecting cost minimizer, and the trigram-indexed approximate locator
`find_best`.

Python strings are modelled as `List Char`; Python integers as `Int`
(or `Nat` where the source value is provably non-negative); Python's
slice and negative-index semantics are modelled explicitly; the floating
point expressions of the source (`0.8` vote drop-off ratio and the
`(window ± 0.5) * window_size` bounds) are modelled by the exact rational
arithmetic they denote at the integer scales the program handles.
-/

namespace DSAlign

/-- Python index normalization for slices: a negative index counts from the
end, and the result is clamped into `[0, n]`. -/
def pyIndexNorm (n : Nat) (i : Int) : Nat :=
  (min (if i < 0 then i + n else i) (n : Int)).toNat

/-- Python slice `s[a:b]` (as used in `self.text[p:p+len]` etc.), including
negative-index and clamping semantics. -/
def pySlice (s : List Char) (a b : Int) : List Char :=
  (s.take (pyIndexNorm s.length b)).drop (pyIndexNorm s.length a)

/-- Length of the maximal run of non-whitespace characters at the front of a
list; used to model the two while-loop walks of `get_token_interval`. -/
def leadingRun : List Char → Nat
  | [] => 0
  | c :: rest => if c.isWhitespace then 0 else leadingRun rest + 1

/-- `get_token_interval(text, at)` from `align/text.py`: the maximal
contiguous run of non-whitespace characters containing position `at`
(as a half-open interval). The two directional while-loops of the source
are modelled by `leadingRun` on the reversed prefix and on the suffix.
When the loops never run (`at` out of range or on whitespace), the
sentinels `start = len(text)`, `end = 0` are kept, so the final test
`start <= end` still succeeds for an empty text, returning `(0, 1)`;
otherwise `(at, at)` is returned. -/
def get_token_interval (text : List Char) (at0 : Int) : Int × Int :=
  if 0 ≤ at0 ∧ at0 < (text.length : Int) ∧ ¬(text.getD at0.toNat ' ').isWhitespace then
    let a := at0.toNat
    let l := leadingRun ((text.take (a + 1)).reverse)
    let r := leadingRun (text.drop a)
    (((a + 1 - l : Nat) : Int), ((a + r : Nat) : Int))
  else if text.length = 0 then (0, 1)
  else (at0, at0)

/-- `get_token_sibling(text, interval, direction)` from `align/text.py`. -/
def get_token_sibling (text : List Char) (interval : Int × Int) (direction : Int) : Int × Int :=
  get_token_interval text (if direction < 0 then interval.1 - 2 else interval.2 + 1)

/-- `get_interval_text(text, interval)` from `align/text.py`. -/
def get_interval_text (text : List Char) (interval : Int × Int) : List Char :=
  pySlice text interval.1 interval.2

/-- `combine_intervals(i1, i2)` from `align/text.py`. -/
def combine_intervals (i1 i2 : Int × Int) : Int × Int :=
  (min i1.1 i2.1, max i1.2 i2.2)

/-- `interval_len(interval)` from `align/text.py`. -/
def interval_len (interval : Int × Int) : Int :=
  interval.2 - interval.1

/-! ### Levenshtein distance (`levenshtein` in `align/text.py`)

The source computes the distance with a rolling dynamic-programming row
(after swapping so the first sequence is the shorter one). `levRowAux`
models the inner `for j` loop, `levRows` the outer `for i` loop. -/

/-- One step of the inner DP loop: given the query character `bi` of the
current row, the remaining characters of `a`, the tail of the previous row
(`p0` is `previous[j-1]`, `p1` is `previous[j]`), and the last entry written
into the current row, produce the rest of the current row. -/
def levRowAux (bi : Char) : List Char → List Nat → Nat → List Nat
  | aj :: arest, p0 :: p1 :: prest, cur =>
    let v := min (p1 + 1) (min (cur + 1) (p0 + (if aj = bi then 0 else 1)))
    v :: levRowAux bi arest (p1 :: prest) v
  | _, _, _ => []

/-- The outer DP loop: process the characters of `b` in order, carrying the
current row and the row index `i`. -/
def levRows (a : List Char) : List Char → List Nat → Nat → List Nat
  | [], row, _ => row
  | bi :: brest, row, i => levRows a brest (i :: levRowAux bi a row i) (i + 1)

/-- `levenshtein(a, b)` from `align/text.py`: swap so that the first list is
no longer than the second, run the DP, and read the last entry of the final
row. -/
def levenshtein (a b : List Char) : Nat :=
  let p := if a.length > b.length then (b, a) else (a, b)
  let n := p.1.length
  (levRows p.1 p.2 (List.range (n + 1)) 1).getD n 0

/-- Reference recursion for the Levenshtein distance (peeling front
characters); the DP of the source is proved equal to this recursion applied
to the reversed inputs. -/
def levRec : List Char → List Char → Nat
  | [], b => b.length
  | a :: arest, [] => (a :: arest).length
  | x :: xs, y :: ys =>
    min (levRec xs ys + (if x = y then 0 else 1))
      (min (levRec xs (y :: ys) + 1) (levRec (x :: xs) ys + 1))

/-- The intended contents of a DP row: entry `k` is the distance between the
processed prefix of `a` extended by `k` characters of `arest` (kept in
reversed form `arev`) and the processed prefix of `b` (reversed, `brev`). -/
def specRow (arev brev : List Char) : List Char → List Nat
  | [] => [levRec arev brev]
  | aj :: rest => levRec arev brev :: specRow (aj :: arev) brev rest

/-! ### Stable sorting (Python's `sorted`, ascending and descending) -/

/-- Stable insertion into an ascending-by-key list: an element is placed
before the first strictly larger key, and before equal keys of later
original position, modelling Python's stable `sorted`. -/
def insertAsc {α : Type} (key : α → Nat) (x : α) : List α → List α
  | [] => [x]
  | y :: ys => if key x ≤ key y then x :: y :: ys else y :: insertAsc key x ys

/-- Stable ascending sort by key (Python `sorted(items, key=...)`). -/
def isortAsc {α : Type} (key : α → Nat) : List α → List α
  | [] => []
  | x :: xs => insertAsc key x (isortAsc key xs)

/-- Stable insertion into a descending-by-key list (for
`sorted(..., reverse=True)`): equal keys keep the original order. -/
def insertDesc {α : Type} (key : α → Nat) (x : α) : List α → List α
  | [] => [x]
  | y :: ys => if key y ≤ key x then x :: y :: ys else y :: insertDesc key x ys

/-- Stable descending sort by key (Python `sorted(items, key=..., reverse=True)`). -/
def isortDesc {α : Type} (key : α → Nat) : List α → List α
  | [] => []
  | x :: xs => insertDesc key x (isortDesc key xs)

/-- `LevenshteinSearch._find_best_neighbour_token`: compare the left
sibling, the centre token and the right sibling against the query token by
edit distance and keep the first of the (stably) distance-sorted list. -/
def find_best_neighbour_token (text original_text : List Char) (center : Int × Int) : Int × Int :=
  let tokens := [get_token_sibling text center (-1), center, get_token_sibling text center 1]
  let pairs := tokens.map (fun t => (t, levenshtein (get_interval_text text t) original_text))
  ((isortAsc (fun it => it.2) pairs).headD (center, 0)).1

/-! ### The bisecting minimizers

`interval_search` (nested inside `_find_best_in_interval` in `align/text.py`)
and `greedy_minimum_search` (in `align/utils.py`). Both are recursive with a
non-structural measure; they are modelled with an explicit fuel parameter
(`searchFuel a b` always suffices), which keeps them computable by the
kernel. The only textual difference between the two sources is that
`greedy_minimum_search` also swaps `result_a`/`result_b` when it swaps
`a`/`b`, while `interval_search` does not. -/

/-- Fuel bound sufficient for the bisecting recursion over `[a, b]`:
the width of the range plus two (one step for a possible initial swap). -/
def searchFuel (a b : Int) : Nat :=
  (max a b - min a b).toNat + 2

/-- `interval_search` from `_find_best_in_interval` (fuelled). -/
def interval_search_fuel {α : Type} : Nat → Int → Int → (Int → Nat × α) →
    Option (Nat × α) → Option (Nat × α) → Nat × α
  | 0, a, _, compute, ra, rb => ra.getD (rb.getD (compute a))
  | fuel + 1, a, b, compute, ra, rb =>
    if a > b then interval_search_fuel fuel b a compute ra rb
    else if a = b then ra.getD (rb.getD (compute a))
    else
      let ra2 := ra.getD (compute a)
      let rb2 := rb.getD (compute b)
      if b = a + 1 then (if ra2.1 < rb2.1 then ra2 else rb2)
      else
        let c := (a + b) / 2
        if ra2.1 < rb2.1 then interval_search_fuel fuel a c compute (some ra2) none
        else interval_search_fuel fuel c b compute none (some rb2)

/-- `interval_search(a, b, compute, result_a, result_b)` from
`align/text.py` (note: on `a > b` it swaps the bounds but not the supplied
results). -/
def interval_search {α : Type} (a b : Int) (compute : Int → Nat × α)
    (ra rb : Option (Nat × α)) : Nat × α :=
  interval_search_fuel (searchFuel a b) a b compute ra rb

/-- `greedy_minimum_search` from `align/utils.py` (fuelled). -/
def greedy_minimum_search_fuel {α : Type} : Nat → Int → Int → (Int → Nat × α) →
    Option (Nat × α) → Option (Nat × α) → Nat × α
  | 0, a, _, compute, ra, rb => ra.getD (rb.getD (compute a))
  | fuel + 1, a, b, compute, ra, rb =>
    if a > b then greedy_minimum_search_fuel fuel b a compute rb ra
    else if a = b then ra.getD (rb.getD (compute a))
    else
      let ra2 := ra.getD (compute a)
      let rb2 := rb.getD (compute b)
      if b = a + 1 then (if ra2.1 < rb2.1 then ra2 else rb2)
      else
        let c := (a + b) / 2
        if ra2.1 < rb2.1 then greedy_minimum_search_fuel fuel a c compute (some ra2) none
        else greedy_minimum_search_fuel fuel c b compute none (some rb2)

/-- `greedy_minimum_search(a, b, compute, result_a, result_b)` from
`align/utils.py` (on `a > b` it swaps both the bounds and the results). -/
def greedy_minimum_search {α : Type} (a b : Int) (compute : Int → Nat × α)
    (ra rb : Option (Nat × α)) : Nat × α :=
  greedy_minimum_search_fuel (searchFuel a b) a b compute ra rb

/-- Instrumented `greedy_minimum_search`: the same recursion, additionally
returning the list of positions at which `compute` is invoked (in call
order). -/
def gmsTrace_fuel {α : Type} : Nat → Int → Int → (Int → Nat × α) →
    Option (Nat × α) → Option (Nat × α) → (Nat × α) × List Int
  | 0, a, _, compute, ra, rb =>
    (ra.getD (rb.getD (compute a)), if ra.isNone && rb.isNone then [a] else [])
  | fuel + 1, a, b, compute, ra, rb =>
    if a > b then gmsTrace_fuel fuel b a compute rb ra
    else if a = b then
      (ra.getD (rb.getD (compute a)), if ra.isNone && rb.isNone then [a] else [])
    else
      let ra2 := ra.getD (compute a)
      let rb2 := rb.getD (compute b)
      let evA : List Int := if ra.isNone then [a] else []
      let evB : List Int := if rb.isNone then [b] else []
      if b = a + 1 then ((if ra2.1 < rb2.1 then ra2 else rb2), evA ++ evB)
      else
        let c := (a + b) / 2
        if ra2.1 < rb2.1 then
          let rt := gmsTrace_fuel fuel a c compute (some ra2) none
          (rt.1, evA ++ evB ++ rt.2)
        else
          let rt := gmsTrace_fuel fuel c b compute none (some rb2)
          (rt.1, evA ++ evB ++ rt.2)

/-- Instrumented `greedy_minimum_search` with sufficient fuel. -/
def gmsTrace {α : Type} (a b : Int) (compute : Int → Nat × α)
    (ra rb : Option (Nat × α)) : (Nat × α) × List Int :=
  gmsTrace_fuel (searchFuel a b) a b compute ra rb

/-! ### Interval refinement (`LevenshteinSearch._find_best_in_interval`) -/

/-- `_find_best_in_interval(look_for, start, stop)` from `align/text.py`:
bisect for the best window start, stretch the start, stretch the end, snap
both boundaries to token edges, recombine and recompute the distance. -/
def find_best_in_interval (text query : List Char) (start stop : Int) : Nat × (Int × Int) :=
  let L := query.length
  let r1 := interval_search start stop
    (fun p => (levenshtein (pySlice text p (p + L)) query, (p, p + (L : Int)))) none none
  let bs1 := r1.2.1
  let be1 := r1.2.2
  let sr := (L / 3 : Nat)
  let r2 := interval_search (bs1 - sr) (bs1 + sr)
    (fun p => (levenshtein (pySlice text p be1) query, (p, be1))) none none
  let bs2 := r2.2.1
  let be2 := r2.2.2
  let r3 := interval_search (be2 - sr) (be2 + sr)
    (fun p => (levenshtein (pySlice text bs2 p) query, (bs2, p))) none none
  let bs3 := r3.2.1
  let be3 := r3.2.2
  let ft0 := get_token_interval text bs3
  let ft1 := if interval_len ft0 = 0 then get_token_interval text (bs3 + 1) else ft0
  let firstq := get_interval_text query (get_token_interval query 0)
  let ftok := find_best_neighbour_token text firstq ft1
  let lt0 := get_token_interval text (be3 - 1)
  let lt1 := if interval_len lt0 = 0 then get_token_interval text (be3 - 2) else lt0
  let lastq := get_interval_text query (get_token_interval query ((L : Int) - 2))
  let ltok := find_best_neighbour_token text lastq lt1
  let best := combine_intervals ftok ltok
  (levenshtein (pySlice text best.1 best.2) query, best)

/-! ### Trigram index and `LevenshteinSearch.find_best` -/

/-- The padded text `' ' + text + ' '` over which trigrams are taken. -/
def padded (s : List Char) : List Char :=
  ' ' :: (s ++ [' '])

/-- All trigrams of a list in position order (`nltk.ngrams(s, 3)`). -/
def trigrams (s : List Char) : List (List Char) :=
  (List.range (s.length - 2)).map (fun i => (s.drop i).take 3)

/-- The occurrence bucket of a trigram in the padded text: all start offsets
(in increasing, i.e. discovery, order). Models `LevenshteinSearch.ngrams`. -/
def occurrences (text : List Char) (g : List Char) : List Nat :=
  (List.range ((padded text).length - 2)).filter
    (fun i => ((padded text).drop i).take 3 = g)

/-- The sequence of window votes cast in `find_best`: for each padded-query
trigram (in order), for each in-range occurrence in its bucket, the window
index `occurrence / window_size`. -/
def windowHits (text query : List Char) (start stop : Int) : List Nat :=
  (trigrams (padded query)).flatMap (fun g =>
    ((occurrences text g).filter
      (fun (o : Nat) => ¬((o : Int) < start ∨ (o : Int) > stop))).map
      (fun (o : Nat) => o / query.length))

/-- Deduplication keeping first occurrences (the key order of a Python dict
filled in discovery order). -/
def dedupAux (seen : List Nat) : List Nat → List Nat
  | [] => []
  | x :: xs => if x ∈ seen then dedupAux seen xs else x :: dedupAux (x :: seen) xs

/-- Keys of the `windows` dict of `find_best`, in insertion order. -/
def dedupFirst (l : List Nat) : List Nat :=
  dedupAux [] l

/-- The vote count of a window in `find_best`. -/
def voteCount (text query : List Char) (start stop : Int) (w : Nat) : Nat :=
  (windowHits text query start stop).count w

/-- `candidate_windows` of `find_best`: the window keys stably sorted by
vote count descending. -/
def candidateWindows (text query : List Char) (start stop : Int) : List Nat :=
  isortDesc (voteCount text query start stop) (dedupFirst (windowHits text query start stop))

/-- The early-stop test of the candidate walk:
`windows[window] / last_window_grams < 0.8` with `last_window_grams`
initially `0.1`. With the initial `0.1` the test holds only for a zero
count; afterwards `c / l < 0.8` is exactly `5 * c < 4 * l`. -/
def breakCond (last : Option Nat) (c : Nat) : Bool :=
  match last with
  | none => decide (c = 0)
  | some l => decide (5 * c < 4 * l)

/-- The lower bound `int((window - 0.5) * window_size)` of a candidate's
search neighbourhood (`int` truncates toward zero; the product is exact). -/
def startBound (w ws : Nat) : Int :=
  if w = 0 then -((ws / 2 : Nat) : Int) else (((2 * w - 1) * ws / 2 : Nat) : Int)

/-- The upper bound `int((window + 0.5) * window_size)` of a candidate's
search neighbourhood. -/
def stopBound (w ws : Nat) : Int :=
  (((2 * w + 1) * ws / 2 : Nat) : Int)

/-- Refinement of one candidate window, as performed inside the loop of
`find_best`. -/
def refineOne (text query : List Char) (start stop : Int) (ws w : Nat) : Nat × (Int × Int) :=
  find_best_in_interval text query
    (max start (startBound w ws))
    (min (stop - (query.length : Int)) (stopBound w ws))

/-- The candidate walk of `find_best`: the break test, the refinement and
the strict-improvement update of the best `(interval, distance)` pair. -/
def walkLoop (text query : List Char) (start stop : Int) (ws : Nat) (cnt : Nat → Nat) :
    List Nat → Option Nat → Option (Int × Int) × Int → Option (Int × Int) × Int
  | [], _, best => best
  | w :: rest, last, best =>
    if breakCond last (cnt w) then best
    else
      let r := refineOne text query start stop ws w
      let best2 := if best.1 = none ∨ (r.1 : Int) < best.2 then (some r.2, (r.1 : Int)) else best
      walkLoop text query start stop ws cnt rest (some (cnt w)) best2

/-- `LevenshteinSearch.find_best(look_for, start, stop, threshold)` from
`align/text.py` (the `threshold` parameter is accepted and unused, as in the
source). Returns `(best_interval, best_distance)`, with `(none, -1)` when no
candidate window was refined. -/
def find_best (text query : List Char) (start stop0 threshold : Int) : Option (Int × Int) × Int :=
  let stop := if stop0 < 0 then (text.length : Int) else stop0
  let cnt := voteCount text query start stop
  walkLoop text query start stop query.length cnt
    ((candidateWindows text query start stop).take 10) none (none, -1)

/-- The list of candidates actually refined by the walk of `find_best`
(specification-side reading of the break logic). -/
def walkedList (cnt : Nat → Nat) : List Nat → Option Nat → List Nat
  | [], _ => []
  | w :: rest, last =>
    if breakCond last (cnt w) then []
    else w :: walkedList cnt rest (some (cnt w))

/-- The best-so-far update of the walk of `find_best`
(`if not best_interval or interval_distance < best_distance`). -/
def bestStep (best : Option (Int × Int) × Int) (r : Nat × (Int × Int)) :
    Option (Int × Int) × Int :=
  if best.1 = none ∨ (r.1 : Int) < best.2 then (some r.2, (r.1 : Int)) else best

/-- First minimum of a list of `(distance, interval)` pairs by distance:
ties keep the earliest element. -/
def firstMin : List (Nat × (Int × Int)) → Option (Nat × (Int × Int))
  | [] => none
  | r :: rs =>
    match firstMin rs with
    | none => some r
    | some m => if r.1 ≤ m.1 then some r else some m

/-! ### Text normalization (`TextCleaner` in `align/text.py`) -/

/-- The per-character loop of `TextCleaner.__init__`: dash-to-space
replacement, whitespace collapsing (with the `ws` flag), permission
filtering, and recording of kept characters with their positions. -/
def textCleanLoop (alphabet : Char → Bool) (normalize_space dashes_to_ws : Bool) :
    List (Nat × Char) → Bool → List (Char × Nat)
  | [], _ => []
  | (position, c0) :: rest, ws =>
    let c1 := if dashes_to_ws ∧ c0 = '-' ∧ ¬alphabet '-' then ' ' else c0
    if normalize_space ∧ c1.isWhitespace then
      if ws then textCleanLoop alphabet normalize_space dashes_to_ws rest ws
      else if ¬alphabet ' ' then textCleanLoop alphabet normalize_space dashes_to_ws rest true
      else (' ', position) :: textCleanLoop alphabet normalize_space dashes_to_ws rest true
    else
      if ¬alphabet c1 then textCleanLoop alphabet normalize_space dashes_to_ws rest ws
      else if ¬c1.isWhitespace then
        (c1, position) :: textCleanLoop alphabet normalize_space dashes_to_ws rest false
      else (c1, position) :: textCleanLoop alphabet normalize_space dashes_to_ws rest ws

/-- `TextCleaner.__init__`: returns `(clean_text, positions)` for a raw
text, a character-permission oracle and the three configuration flags. -/
def TextCleaner_clean (original : List Char) (alphabet : Char → Bool)
    (to_lower normalize_space dashes_to_ws : Bool) : List Char × List Nat :=
  let prepared := if to_lower then original.map Char.toLower else original
  let pairs := textCleanLoop alphabet normalize_space dashes_to_ws prepared.enum false
  (pairs.map Prod.fst, pairs.map Prod.snd)

/-- Outcome of `TextCleaner.get_original_offset`: a returned value, the
`except:` branch that prints the lengths and implicitly returns `None`, or
an uncaught exception (`positions[-1]` on an empty table). -/
inductive OffsetResult where
  | val : Int → OffsetResult
  | printedNone : OffsetResult
  | raised : OffsetResult
deriving DecidableEq, Repr

/-- `TextCleaner.get_original_offset(clean_offset)` from `align/text.py`:
`positions[-1] + 1` when `clean_offset == len(positions)` (raising on an
empty table), Python list indexing (including negative wrap-around) inside
the `try:`, and the printing `except:` branch returning `None` otherwise. -/
def get_original_offset (positions : List Nat) (clean_offset : Int) : OffsetResult :=
  if clean_offset = (positions.length : Int) then
    match positions.getLast? with
    | some v => .val ((v : Int) + 1)
    | none => .raised
  else if 0 ≤ clean_offset ∧ clean_offset < (positions.length : Int) then
    .val ((positions.getD clean_offset.toNat 0 : Nat) : Int)
  else if -(positions.length : Int) ≤ clean_offset ∧ clean_offset < 0 then
    .val ((positions.getD (clean_offset + positions.length).toNat 0 : Nat) : Int)
  else .printedNone

/-! ## Lemmas: token intervals -/

theorem leadingRun_le_length (l : List Char) : leadingRun l ≤ l.length := by
  induction l with
  | nil => simp [leadingRun]
  | cons c rest ih =>
    simp only [leadingRun, List.length_cons]
    split <;> omega

theorem leadingRun_pos (c : Char) (rest : List Char) (h : ¬c.isWhitespace) :
    1 ≤ leadingRun (c :: rest) := by
  simp [leadingRun, h]

/-- The interval returned by token lookup is always well formed. -/
theorem get_token_interval_le (text : List Char) (at0 : Int) :
    (get_token_interval text at0).1 ≤ (get_token_interval text at0).2 := by
  unfold get_token_interval
  split
  · next h =>
    obtain ⟨h0, hlt, hws⟩ := h
    simp only
    have ha : at0.toNat < text.length := by omega
    have hhead : ∃ rest, (text.take (at0.toNat + 1)).reverse =
        text.getD at0.toNat ' ' :: rest := by
      refine ⟨(text.take at0.toNat).reverse, ?_⟩
      rw [List.getD_eq_getElem text ' ' ha, List.take_succ]
      have : text[at0.toNat]?.toList = [text[at0.toNat]] := by
        simp [List.getElem?_eq_getElem ha]
      rw [this, List.reverse_append]
      simp
    obtain ⟨rest, hrest⟩ := hhead
    have hl : 1 ≤ leadingRun ((text.take (at0.toNat + 1)).reverse) := by
      rw [hrest]; exact leadingRun_pos _ _ hws
    have : at0.toNat + 1 - leadingRun ((text.take (at0.toNat + 1)).reverse) ≤
        at0.toNat + leadingRun (text.drop at0.toNat) := by omega
    exact_mod_cast this
  · split
    · decide
    · simp

/-- On a non-empty text, token lookup at a position inside `[0, len]` stays
inside `[0, len]` (for the empty text, `get_token_interval_nil` below shows
the sentinel logic makes the result `(0, 1)` exceed `len = 0`). -/
theorem get_token_interval_bounds (text : List Char) (at0 : Int)
    (hne : text ≠ []) (h0 : 0 ≤ at0) (h1 : at0 ≤ (text.length : Int)) :
    0 ≤ (get_token_interval text at0).1 ∧
      (get_token_interval text at0).2 ≤ (text.length : Int) := by
  unfold get_token_interval
  split
  · next h =>
    obtain ⟨-, hlt, -⟩ := h
    simp only
    constructor
    · exact_mod_cast Nat.zero_le _
    · have ha : at0.toNat < text.length := by omega
      have hr : leadingRun (text.drop at0.toNat) ≤ text.length - at0.toNat := by
        have := leadingRun_le_length (text.drop at0.toNat)
        simpa using this
      have : at0.toNat + leadingRun (text.drop at0.toNat) ≤ text.length := by omega
      exact_mod_cast this
  · split
    · next hlen => exact absurd (List.length_eq_zero.mp hlen) hne
    · exact ⟨h0, h1⟩

/-- On the empty text the sentinels `start = 0`, `end = 0` pass the final
`start <= end` test, so every query position yields `(0, 1)`, whose end
index `1` exceeds `len('') = 0`. -/
theorem get_token_interval_nil (at0 : Int) :
    get_token_interval ([] : List Char) at0 = (0, 1) := by
  unfold get_token_interval
  have hc : ¬(0 ≤ at0 ∧ at0 < ((([] : List Char).length : Nat) : Int) ∧
      ¬(([] : List Char).getD at0.toNat ' ').isWhitespace) := by
    rintro ⟨h0, h1, -⟩
    simp at h1
    omega
  rw [if_neg hc]
  rfl

theorem get_token_sibling_le (text : List Char) (iv : Int × Int) (d : Int) :
    (get_token_sibling text iv d).1 ≤ (get_token_sibling text iv d).2 :=
  get_token_interval_le text _

theorem combine_intervals_le (i1 i2 : Int × Int) (h1 : i1.1 ≤ i1.2) (h2 : i2.1 ≤ i2.2) :
    (combine_intervals i1 i2).1 ≤ (combine_intervals i1 i2).2 := by
  simp only [combine_intervals]
  omega

/-! ## Lemmas: the neighbour-token selection -/

/-- Head of the stable ascending sort of a three-element list: the first
element attaining the minimal key. -/
theorem sort3_head {α : Type} (key : α → Nat) (x y z d : α) :
    (isortAsc key [x, y, z]).headD d =
      if key x ≤ key y ∧ key x ≤ key z then x else if key y ≤ key z then y else z := by
  by_cases h1 : key y ≤ key z <;> by_cases h2 : key x ≤ key y <;>
    by_cases h3 : key x ≤ key z <;>
    first
      | (exfalso; omega)
      | (simp [isortAsc, insertAsc, h1, h2, h3])

/-- Closed form of `_find_best_neighbour_token`: the first token attaining
the minimal edit distance, in the order left sibling, centre, right sibling
(Python's stable `sorted` places an earlier element before later equal-key
elements). -/
theorem neighbour_eq (text q : List Char) (c : Int × Int) :
    find_best_neighbour_token text q c =
      if levenshtein (get_interval_text text (get_token_sibling text c (-1))) q ≤
           levenshtein (get_interval_text text c) q ∧
         levenshtein (get_interval_text text (get_token_sibling text c (-1))) q ≤
           levenshtein (get_interval_text text (get_token_sibling text c 1)) q
      then get_token_sibling text c (-1)
      else if levenshtein (get_interval_text text c) q ≤
                levenshtein (get_interval_text text (get_token_sibling text c 1)) q
      then c
      else get_token_sibling text c 1 := by
  have h := sort3_head (fun it : (Int × Int) × Nat => it.2)
    (get_token_sibling text c (-1),
      levenshtein (get_interval_text text (get_token_sibling text c (-1))) q)
    (c, levenshtein (get_interval_text text c) q)
    (get_token_sibling text c 1,
      levenshtein (get_interval_text text (get_token_sibling text c 1)) q)
    (c, 0)
  simp only [find_best_neighbour_token, List.map]
  rw [h]
  split_ifs <;> rfl

/-- The neighbour search returns one of the three compared tokens. -/
theorem neighbour_mem (text q : List Char) (c : Int × Int) :
    find_best_neighbour_token text q c = get_token_sibling text c (-1) ∨
      find_best_neighbour_token text q c = c ∨
      find_best_neighbour_token text q c = get_token_sibling text c 1 := by
  rw [neighbour_eq]
  split_ifs <;> simp

theorem neighbour_le (text q : List Char) (c : Int × Int) (hc : c.1 ≤ c.2) :
    (find_best_neighbour_token text q c).1 ≤ (find_best_neighbour_token text q c).2 := by
  rcases neighbour_mem text q c with h | h | h <;> rw [h]
  · exact get_token_sibling_le text c (-1)
  · exact hc
  · exact get_token_sibling_le text c 1

/-- The interval produced by `_find_best_in_interval` is well formed: it is
the union of two (well formed) token intervals. -/
theorem find_best_in_interval_le (text query : List Char) (a b : Int) :
    (find_best_in_interval text query a b).2.1 ≤ (find_best_in_interval text query a b).2.2 := by
  simp only [find_best_in_interval]
  apply combine_intervals_le
  · apply neighbour_le
    split
    · exact get_token_interval_le text _
    · exact get_token_interval_le text _
  · apply neighbour_le
    split
    · exact get_token_interval_le text _
    · exact get_token_interval_le text _

/-! ## Lemmas: the reference Levenshtein recursion -/

theorem levRec_nil_left (b : List Char) : levRec [] b = b.length := by
  cases b <;> simp [levRec]

theorem levRec_nil_right (a : List Char) : levRec a [] = a.length := by
  cases a <;> simp [levRec]

theorem levRec_cons_cons (x y : Char) (xs ys : List Char) :
    levRec (x :: xs) (y :: ys) =
      min (levRec xs ys + (if x = y then 0 else 1))
        (min (levRec xs (y :: ys) + 1) (levRec (x :: xs) ys + 1)) := by
  simp [levRec]

theorem levRec_self (a : List Char) : levRec a a = 0 := by
  induction a with
  | nil => simp [levRec]
  | cons x xs ih => rw [levRec_cons_cons, ih]; simp

theorem levRec_symm (a : List Char) : ∀ b, levRec a b = levRec b a := by
  induction a with
  | nil => intro b; rw [levRec_nil_left, levRec_nil_right]
  | cons x xs ihx =>
    intro b
    induction b with
    | nil => rw [levRec_nil_left, levRec_nil_right]
    | cons y ys ihy =>
      rw [levRec_cons_cons, levRec_cons_cons]
      have h1 := ihx ys
      have h2 := ihx (y :: ys)
      rcases eq_or_ne x y with rfl | h
      · simp only [if_pos rfl]; omega
      · rw [if_neg h, if_neg (Ne.symm h)]; omega

/-- The distance is at least the length difference (one direction). -/
theorem levRec_length_le (b c : List Char) : c.length ≤ b.length + levRec b c := by
  have main : ∀ n b c : _, List.length b + List.length c ≤ n →
      List.length c ≤ List.length b + levRec b c := by
    intro n
    induction n with
    | zero => intro b c h; omega
    | succ n ih =>
      intro b c hlen
      match b, c with
      | [], c => rw [levRec_nil_left]; omega
      | y :: ys, [] => simp
      | y :: ys, z :: zs =>
        simp only [List.length_cons] at hlen
        have i1 := ih ys zs (by omega)
        have i2 := ih ys (z :: zs) (by simp only [List.length_cons]; omega)
        have i3 := ih (y :: ys) zs (by simp only [List.length_cons]; omega)
        simp only [List.length_cons] at i1 i2 i3 ⊢
        rw [levRec_cons_cons]
        rcases eq_or_ne y z with rfl | h
        · rw [if_pos rfl]; omega
        · rw [if_neg h]; omega
  exact main (b.length + c.length) b c le_rfl

/-- The distance is at most the sum of the lengths. -/
theorem levRec_le_sum (a : List Char) : ∀ b, levRec a b ≤ a.length + b.length := by
  induction a with
  | nil => intro b; rw [levRec_nil_left]; omega
  | cons x xs ih =>
    intro b
    cases b with
    | nil => rw [levRec_nil_right]; simp
    | cons y ys =>
      have i1 := ih ys
      rw [levRec_cons_cons]
      simp only [List.length_cons] at *
      rcases eq_or_ne x y with rfl | h
      · rw [if_pos rfl]; omega
      · rw [if_neg h]; omega

/-- Triangle inequality for the reference recursion. -/
theorem levRec_triangle (a b c : List Char) : levRec a c ≤ levRec a b + levRec b c := by
  have main : ∀ n a b c : _, List.length a + List.length b + List.length c ≤ n →
      levRec a c ≤ levRec a b + levRec b c := by
    intro n
    induction n with
    | zero =>
      intro a b c h
      obtain rfl : a = [] := List.length_eq_zero.mp (by omega)
      obtain rfl : b = [] := List.length_eq_zero.mp (by omega)
      obtain rfl : c = [] := List.length_eq_zero.mp (by omega)
      simp [levRec]
    | succ n ih =>
      intro a b c hlen
      match a, b, c with
      | [], b, c =>
        rw [levRec_nil_left, levRec_nil_left]
        have := levRec_length_le b c
        omega
      | x :: xs, [], c =>
        rw [levRec_nil_left, levRec_nil_right]
        have := levRec_le_sum (x :: xs) c
        omega
      | x :: xs, y :: ys, [] =>
        rw [levRec_nil_right, levRec_nil_right]
        have h1 := levRec_length_le (y :: ys) (x :: xs)
        have h2 := levRec_symm (x :: xs) (y :: ys)
        omega
      | x :: xs, y :: ys, z :: zs =>
        simp only [List.length_cons] at hlen
        have ia := ih xs ys zs (by omega)
        have ib := ih xs ys (z :: zs) (by simp only [List.length_cons]; omega)
        have ic := ih (x :: xs) (y :: ys) zs (by simp only [List.length_cons]; omega)
        have id1 := ih xs (y :: ys) (z :: zs) (by simp only [List.length_cons]; omega)
        have ie1 := ih (x :: xs) ys zs (by simp only [List.length_cons]; omega)
        have if1 := ih (x :: xs) ys (z :: zs) (by simp only [List.length_cons]; omega)
        have htri : (if x = z then 0 else 1) ≤
            (if x = y then 0 else 1) + ((if y = z then 0 else 1) : Nat) := by
          by_cases h1 : x = y
          · subst h1; by_cases h2 : x = z <;> simp [h2]
          · by_cases h2 : y = z
            · subst h2; simp [h1]
            · by_cases h3 : x = z <;> simp [h1, h2, h3]
        simp only [levRec_cons_cons] at ic id1 if1 ⊢
        set c1 := (if x = y then 0 else 1 : Nat) with hc1
        set c2 := (if y = z then 0 else 1 : Nat) with hc2
        set c3 := (if x = z then 0 else 1 : Nat) with hc3
        omega
  exact main (a.length + b.length + c.length) a b c le_rfl

/-! ## Lemmas: the rolling-row DP computes the reference recursion -/

/-- The DP cell update realizes one step of the recursion. -/
theorem levStep (aj bi : Char) (arev brev : List Char) :
    min (levRec (aj :: arev) brev + 1)
      (min (levRec arev (bi :: brev) + 1)
        (levRec arev brev + (if aj = bi then 0 else 1))) =
      levRec (aj :: arev) (bi :: brev) := by
  rw [levRec_cons_cons]
  rcases eq_or_ne aj bi with rfl | h
  · simp only [if_pos rfl]; omega
  · simp only [if_neg h]; omega

theorem specRow_head (arev brev l : List Char) :
    levRec arev brev :: (specRow arev brev l).tail = specRow arev brev l := by
  cases l <;> simp [specRow]

/-- The inner DP loop maps the intended previous row to (the tail of) the
intended next row. -/
theorem levRowAux_spec (bi : Char) :
    ∀ (arest arev brev : List Char),
      levRowAux bi arest (specRow arev brev arest) (levRec arev (bi :: brev)) =
        (specRow arev (bi :: brev) arest).tail := by
  intro arest
  induction arest with
  | nil => intro arev brev; simp [specRow, levRowAux]
  | cons aj arest ih =>
    intro arev brev
    cases arest with
    | nil =>
      simp only [specRow, levRowAux, List.tail_cons]
      rw [levStep]
    | cons a2 arest2 =>
      have ihx := ih (aj :: arev) brev
      simp only [specRow, levRowAux, List.tail_cons] at ihx ⊢
      rw [levStep]
      exact congrArg _ ihx

/-- The outer DP loop turns the intended row for a processed prefix into the
intended row for the whole of `b`. -/
theorem levRows_spec (a : List Char) :
    ∀ (b brev : List Char),
      levRows a b (specRow [] brev a) (brev.length + 1) =
        specRow [] (b.reverse ++ brev) a := by
  intro b
  induction b with
  | nil => intro brev; simp [levRows]
  | cons bi brest ih =>
    intro brev
    simp only [levRows]
    have h1 : brev.length + 1 = levRec [] (bi :: brev) := by
      simp [levRec_nil_left]
    rw [h1, levRowAux_spec bi a [] brev, specRow_head [] (bi :: brev) a, levRec_nil_left]
    have h2 := ih (bi :: brev)
    simp only [List.length_cons] at h2 ⊢
    rw [h2]
    simp [List.reverse_cons, List.append_assoc]

/-- The initial row `range (n+1)` is the intended row for the empty prefix
of `b`. -/
theorem specRow_init : ∀ (l arev : List Char),
    specRow arev [] l = (List.range (l.length + 1)).map (· + arev.length) := by
  intro l
  induction l with
  | nil => intro arev; simp [specRow, levRec_nil_right, List.range_succ]
  | cons aj rest ih =>
    intro arev
    simp only [specRow, levRec_nil_right, List.length_cons]
    rw [ih (aj :: arev)]
    conv_rhs => rw [List.range_succ_eq_map]
    simp only [List.map_cons, Nat.zero_add, List.map_map, List.length_cons]
    congr 1
    apply List.map_congr_left
    intro k _
    simp only [Function.comp_apply]
    omega

/-- Reading the final cell of the intended row. -/
theorem specRow_getD : ∀ (l arev brev : List Char),
    (specRow arev brev l).getD l.length 0 = levRec (l.reverse ++ arev) brev := by
  intro l
  induction l with
  | nil => intro arev brev; simp [specRow]
  | cons aj rest ih =>
    intro arev brev
    simp only [specRow, List.length_cons, List.getD_cons_succ]
    rw [ih (aj :: arev) brev]
    simp [List.append_assoc]

/-- The rolling-row implementation of the source equals the reference
recursion on the reversed inputs. -/
theorem levenshtein_eq_levRec (a b : List Char) :
    levenshtein a b = levRec a.reverse b.reverse := by
  have core : ∀ x y : List Char,
      (levRows x y (List.range (x.length + 1)) 1).getD x.length 0 =
        levRec x.reverse y.reverse := by
    intro x y
    have hinit : List.range (x.length + 1) = specRow [] [] x := by
      rw [specRow_init x []]
      simp
    rw [hinit]
    have h1 : (1 : Nat) = List.length ([] : List Char) + 1 := rfl
    rw [h1, levRows_spec x y [], List.append_nil, specRow_getD x [] y.reverse,
      List.append_nil]
  by_cases h : a.length > b.length
  · simp only [levenshtein, if_pos h]
    rw [core b a, levRec_symm]
  · simp only [levenshtein, if_neg h]
    exact core a b

/-- C6: the Levenshtein implementation is symmetric, zero on equal inputs,
satisfies the triangle inequality, and returns the length of the other
sequence on an empty input. -/
theorem C6_levenshtein_metric (a b c s : List Char) :
    levenshtein a b = levenshtein b a ∧
      levenshtein a a = 0 ∧
      levenshtein a c ≤ levenshtein a b + levenshtein b c ∧
      levenshtein [] s = s.length := by
  refine ⟨?_, ?_, ?_, ?_⟩
  · rw [levenshtein_eq_levRec, levenshtein_eq_levRec, levRec_symm]
  · rw [levenshtein_eq_levRec, levRec_self]
  · rw [levenshtein_eq_levRec, levenshtein_eq_levRec, levenshtein_eq_levRec]
    exact levRec_triangle a.reverse b.reverse c.reverse
  · rw [levenshtein_eq_levRec]
    simp [levRec_nil_left]

/-! ## Lemmas: the bisecting minimizers -/

theorem getD_memo {α : Type} (compute : Int → Nat × α) (a : Int) (ra : Option (Nat × α))
    (h : ∀ r, ra = some r → r = compute a) : ra.getD (compute a) = compute a := by
  cases ra with
  | none => rfl
  | some r => exact h r rfl

/-- On a normalized range the two minimizers are textually the same
recursion (the result swap of `greedy_minimum_search` is dead code). -/
theorem interval_search_fuel_eq_gms {α : Type} :
    ∀ (fuel : Nat) (a b : Int) (compute : Int → Nat × α) (ra rb : Option (Nat × α)),
      a ≤ b →
      interval_search_fuel fuel a b compute ra rb =
        greedy_minimum_search_fuel fuel a b compute ra rb := by
  intro fuel
  induction fuel with
  | zero => intros; rfl
  | succ fuel ih =>
    intro a b compute ra rb hab
    simp only [interval_search_fuel, greedy_minimum_search_fuel]
    split_ifs <;>
      first
        | rfl
        | (exfalso; omega)
        | (apply ih; omega)

/-- C10: the nested `interval_search` of `_find_best_in_interval` and
`greedy_minimum_search` of `utils.py` agree whenever no endpoint results
are pre-supplied (their only textual difference, swapping the supplied
results along with the bounds, is invisible for `None` results). -/
theorem interval_search_fuel_eq_gms_none {α : Type} :
    ∀ (fuel : Nat) (a b : Int) (compute : Int → Nat × α),
      interval_search_fuel fuel a b compute none none =
        greedy_minimum_search_fuel fuel a b compute none none := by
  intro fuel a b compute
  by_cases hab : a ≤ b
  · exact interval_search_fuel_eq_gms fuel a b compute none none hab
  · cases fuel with
    | zero => rfl
    | succ fuel =>
      simp only [interval_search_fuel, greedy_minimum_search_fuel]
      rw [if_pos (by omega : a > b), if_pos (by omega : a > b)]
      exact interval_search_fuel_eq_gms fuel b a compute none none (by omega)

/-- C10: the nested `interval_search` of `_find_best_in_interval` and
`greedy_minimum_search` of `utils.py` agree whenever no endpoint results
are pre-supplied (their only textual difference, swapping the supplied
results along with the bounds, is invisible for `None` results). -/
theorem C10_interval_search_eq_greedy {α : Type} (a b : Int) (compute : Int → Nat × α) :
    interval_search a b compute none none = greedy_minimum_search a b compute none none := by
  unfold interval_search greedy_minimum_search
  exact interval_search_fuel_eq_gms_none (searchFuel a b) a b compute

/-- The instrumented minimizer computes the same value as the plain one. -/
theorem gmsTrace_fuel_fst {α : Type} :
    ∀ (fuel : Nat) (a b : Int) (compute : Int → Nat × α) (ra rb : Option (Nat × α)),
      (gmsTrace_fuel fuel a b compute ra rb).1 =
        greedy_minimum_search_fuel fuel a b compute ra rb := by
  intro fuel
  induction fuel with
  | zero => intros; rfl
  | succ fuel ih =>
    intro a b compute ra rb
    simp only [gmsTrace_fuel, greedy_minimum_search_fuel]
    split_ifs <;> first | rfl | (apply ih)

/-- Full invariant of the instrumented minimizer on a normalized range with
honest memo arguments: the trace stays inside `[a, b]`, has no duplicates,
avoids memoized boundaries, the result is the evaluation of some position in
range, and its cost is minimal among all evaluations (including the
memoized ones). -/
theorem gms_invariant {α : Type} (compute : Int → Nat × α) :
    ∀ (fuel : Nat) (a b : Int) (ra rb : Option (Nat × α)) (res : Nat × α) (tr : List Int),
      a ≤ b → (b - a).toNat + 1 ≤ fuel →
      (∀ r, ra = some r → r = compute a) →
      (∀ r, rb = some r → r = compute b) →
      gmsTrace_fuel fuel a b compute ra rb = (res, tr) →
      (∀ p ∈ tr, a ≤ p ∧ p ≤ b) ∧ tr.Nodup ∧
        (ra.isSome → a ∉ tr) ∧ (rb.isSome → b ∉ tr) ∧
        (∃ p, (p ∈ tr ∨ (ra.isSome ∧ p = a) ∨ (rb.isSome ∧ p = b)) ∧
          a ≤ p ∧ p ≤ b ∧ res = compute p) ∧
        (∀ p ∈ tr, res.1 ≤ (compute p).1) ∧
        (ra = some (compute a) → res.1 ≤ (compute a).1) ∧
        (rb = some (compute b) → res.1 ≤ (compute b).1) := by
  intro fuel
  induction fuel with
  | zero => intro a b ra rb res tr hab hfuel hra hrb hEq; omega
  | succ fuel ih =>
    intro a b ra rb res tr hab hfuel hra hrb hEq
    have hra2 : ra.getD (compute a) = compute a := getD_memo compute a ra hra
    have hrb2 : rb.getD (compute b) = compute b := getD_memo compute b rb hrb
    simp only [gmsTrace_fuel] at hEq
    rw [if_neg (by omega : ¬a > b)] at hEq
    by_cases h1 : a = b
    · subst h1
      rw [if_pos rfl] at hEq
      rw [Prod.mk.injEq] at hEq
      obtain ⟨hres, htr⟩ := hEq
      subst hres
      subst htr
      rcases ra with _ | ra0 <;> rcases rb with _ | rb0
      · -- ra = none, rb = none
        refine ⟨?_, by simp, by simp, by simp,
          ⟨a, by simp, le_refl a, le_refl a, by simp⟩, ?_, by simp, by simp⟩
        · intro p hp
          simp at hp
          omega
        · intro p hp
          simp at hp
          rw [hp]
          simp
      · -- ra = none, rb = some rb0
        have hrb0 : rb0 = compute a := hrb rb0 rfl
        refine ⟨by simp, by simp, by simp, by simp,
          ⟨a, Or.inr (Or.inr ⟨by simp, rfl⟩), le_refl a, le_refl a, by simp [hrb0]⟩,
          by simp, by simp, ?_⟩
        · intro _
          simp [hrb0]
      · -- ra = some ra0, rb = none
        have hra0 : ra0 = compute a := hra ra0 rfl
        refine ⟨by simp, by simp, by simp, by simp,
          ⟨a, Or.inr (Or.inl ⟨by simp, rfl⟩), le_refl a, le_refl a, by simp [hra0]⟩,
          by simp, ?_, ?_⟩
        · intro _
          simp [hra0]
        · intro _
          simp [hra0]
      · -- ra = some ra0, rb = some rb0
        have hra0 : ra0 = compute a := hra ra0 rfl
        refine ⟨by simp, by simp, by simp, by simp,
          ⟨a, Or.inr (Or.inl ⟨by simp, rfl⟩), le_refl a, le_refl a, by simp [hra0]⟩,
          by simp, ?_, ?_⟩
        · intro _
          simp [hra0]
        · intro _
          simp [hra0]
    · rw [if_neg h1] at hEq
      have hlt : a < b := lt_of_le_of_ne hab h1
      by_cases h2 : b = a + 1
      · rw [if_pos h2] at hEq
        rw [hra2, hrb2] at hEq
        subst h2
        rw [Prod.mk.injEq] at hEq
        obtain ⟨hres, htr⟩ := hEq
        subst hres
        subst htr
        rcases ra with _ | ra0 <;> rcases rb with _ | rb0
        · -- both endpoints freshly evaluated, trace [a, a+1]
          refine ⟨?_, by simp, by simp, by simp, ?_, ?_, by simp, by simp⟩
          · intro p hp
            simp at hp
            rcases hp with rfl | rfl <;> constructor <;> omega
          · by_cases hc : (compute a).1 < (compute (a + 1)).1
            · exact ⟨a, Or.inl (by simp), le_refl a, by omega, by rw [if_pos hc]⟩
            · exact ⟨a + 1, Or.inl (by simp), by omega, le_refl _, by rw [if_neg hc]⟩
          · intro p hp
            simp at hp
            rcases hp with rfl | rfl <;> split_ifs with hc <;> omega
        · -- rb memoized, trace [a]
          have hrb0 : rb0 = compute (a + 1) := hrb rb0 rfl
          subst hrb0
          refine ⟨?_, by simp, by simp, ?_, ?_, ?_, by simp, ?_⟩
          · intro p hp
            simp at hp
            subst hp
            constructor <;> omega
          · intro _
            simp
          · by_cases hc : (compute a).1 < (compute (a + 1)).1
            · exact ⟨a, Or.inl (by simp), le_refl a, by omega, by rw [if_pos hc]⟩
            · exact ⟨a + 1, Or.inr (Or.inr ⟨by simp, rfl⟩), by omega, le_refl _,
                by rw [if_neg hc]⟩
          · intro p hp
            simp at hp
            subst hp
            split_ifs with hc <;> omega
          · intro _
            split_ifs with hc <;> omega
        · -- ra memoized, trace [a+1]
          have hra0 : ra0 = compute a := hra ra0 rfl
          subst hra0
          refine ⟨?_, by simp, ?_, by simp, ?_, ?_, ?_, by simp⟩
          · intro p hp
            simp at hp
            subst hp
            constructor <;> omega
          · intro _
            simp
          · by_cases hc : (compute a).1 < (compute (a + 1)).1
            · exact ⟨a, Or.inr (Or.inl ⟨by simp, rfl⟩), le_refl a, by omega, by rw [if_pos hc]⟩
            · exact ⟨a + 1, Or.inl (by simp), by omega, le_refl _, by rw [if_neg hc]⟩
          · intro p hp
            simp at hp
            subst hp
            split_ifs with hc <;> omega
          · intro _
            split_ifs with hc <;> omega
        · -- both memoized, empty trace
          have hra0 : ra0 = compute a := hra ra0 rfl
          subst hra0
          have hrb0 : rb0 = compute (a + 1) := hrb rb0 rfl
          subst hrb0
          refine ⟨by simp, by simp, by simp, by simp, ?_, by simp, ?_, ?_⟩
          · by_cases hc : (compute a).1 < (compute (a + 1)).1
            · exact ⟨a, Or.inr (Or.inl ⟨by simp, rfl⟩), le_refl a, by omega, by rw [if_pos hc]⟩
            · exact ⟨a + 1, Or.inr (Or.inr ⟨by simp, rfl⟩), by omega, le_refl _,
                by rw [if_neg hc]⟩
          · intro _
            split_ifs with hc <;> omega
          · intro _
            split_ifs with hc <;> omega
      · -- the bisection step
        rw [if_neg h2] at hEq
        rw [hra2, hrb2] at hEq
        have hc1 : a < (a + b) / 2 := by omega
        have hc2 : (a + b) / 2 < b := by omega
        by_cases hcmp : (compute a).1 < (compute b).1
        · rw [if_pos hcmp] at hEq
          rcases hrt : gmsTrace_fuel fuel a ((a + b) / 2) compute (some (compute a)) none
            with ⟨res0, tr0⟩
          rw [hrt] at hEq
          obtain ⟨Hbnd, Hnd, Hma, -, ⟨p0, hp0mem, hp0a, hp0c, hp0res⟩, Hmin, Hmemoa, -⟩ :=
            ih a ((a + b) / 2) (some (compute a)) none res0 tr0 (by omega) (by omega)
              (fun r hr => by injection hr with h; exact h.symm)
              (fun r hr => by simp at hr) hrt
          rw [Prod.mk.injEq] at hEq
          simp only at hEq
          obtain ⟨hres, htr⟩ := hEq
          subst hres
          subst htr
          have htr0a : a ∉ tr0 := Hma (by simp)
          have htr0b : b ∉ tr0 := fun hb => by have := Hbnd b hb; omega
          refine ⟨?_, ?_, ?_, ?_, ?_, ?_, ?_, ?_⟩
          · intro p hp
            simp only [List.mem_append] at hp
            rcases hp with (hp | hp) | hp
            · split_ifs at hp <;> simp at hp
              subst hp; omega
            · split_ifs at hp <;> simp at hp
              subst hp; omega
            · have := Hbnd p hp; omega
          · refine List.Nodup.append (List.Nodup.append ?_ ?_ ?_) Hnd ?_
            · split_ifs <;> simp
            · split_ifs <;> simp
            · intro p hp hq
              split_ifs at hp hq <;> simp at hp hq
              omega
            · intro p hp hq
              simp only [List.mem_append] at hp
              rcases hp with hp | hp <;> split_ifs at hp <;> simp at hp <;> subst hp
              · exact htr0a hq
              · exact htr0b hq
          · intro hs
            simp only [List.mem_append, not_or]
            refine ⟨⟨?_, ?_⟩, htr0a⟩
            · split_ifs with h
              · rw [Option.isNone_iff_eq_none] at h
                rw [h] at hs
                simp at hs
              · simp
            · split_ifs <;> simp <;> omega
          · intro hs
            simp only [List.mem_append, not_or]
            refine ⟨⟨?_, ?_⟩, htr0b⟩
            · split_ifs <;> simp <;> omega
            · split_ifs with h
              · rw [Option.isNone_iff_eq_none] at h
                rw [h] at hs
                simp at hs
              · simp
          · rcases hp0mem with hp | ⟨-, hpa⟩ | ⟨hfalse, -⟩
            · exact ⟨p0, Or.inl (by simp [List.mem_append, hp]), by omega, by omega, hp0res⟩
            · rw [hpa] at hp0res
              rcases hraS : ra with _ | ra0
              · exact ⟨a, Or.inl (by simp [List.mem_append, hraS]), le_refl a, by omega, hp0res⟩
              · exact ⟨a, Or.inr (Or.inl ⟨by simp [hraS], rfl⟩), le_refl a, by omega, hp0res⟩
            · exact absurd hfalse (by simp)
          · intro p hp
            simp only [List.mem_append] at hp
            rcases hp with (hp | hp) | hp
            · split_ifs at hp <;> simp at hp
              subst hp
              exact Hmemoa rfl
            · split_ifs at hp <;> simp at hp
              subst hp
              have := Hmemoa rfl
              omega
            · exact Hmin p hp
          · intro _
            exact Hmemoa rfl
          · intro _
            have := Hmemoa rfl
            omega
        · rw [if_neg hcmp] at hEq
          rcases hrt : gmsTrace_fuel fuel ((a + b) / 2) b compute none (some (compute b))
            with ⟨res0, tr0⟩
          rw [hrt] at hEq
          obtain ⟨Hbnd, Hnd, -, Hmb, ⟨p0, hp0mem, hp0a, hp0c, hp0res⟩, Hmin, -, Hmemob⟩ :=
            ih ((a + b) / 2) b none (some (compute b)) res0 tr0 (by omega) (by omega)
              (fun r hr => by simp at hr)
              (fun r hr => by injection hr with h; exact h.symm) hrt
          rw [Prod.mk.injEq] at hEq
          simp only at hEq
          obtain ⟨hres, htr⟩ := hEq
          subst hres
          subst htr
          have htr0b : b ∉ tr0 := Hmb (by simp)
          have htr0a : a ∉ tr0 := fun ha => by have := Hbnd a ha; omega
          refine ⟨?_, ?_, ?_, ?_, ?_, ?_, ?_, ?_⟩
          · intro p hp
            simp only [List.mem_append] at hp
            rcases hp with (hp | hp) | hp
            · split_ifs at hp <;> simp at hp
              subst hp; omega
            · split_ifs at hp <;> simp at hp
              subst hp; omega
            · have := Hbnd p hp; omega
          · refine List.Nodup.append (List.Nodup.append ?_ ?_ ?_) Hnd ?_
            · split_ifs <;> simp
            · split_ifs <;> simp
            · intro p hp hq
              split_ifs at hp hq <;> simp at hp hq
              omega
            · intro p hp hq
              simp only [List.mem_append] at hp
              rcases hp with hp | hp <;> split_ifs at hp <;> simp at hp <;> subst hp
              · exact htr0a hq
              · exact htr0b hq
          · intro hs
            simp only [List.mem_append, not_or]
            refine ⟨⟨?_, ?_⟩, htr0a⟩
            · split_ifs with h
              · rw [Option.isNone_iff_eq_none] at h
                rw [h] at hs
                simp at hs
              · simp
            · split_ifs <;> simp <;> omega
          · intro hs
            simp only [List.mem_append, not_or]
            refine ⟨⟨?_, ?_⟩, htr0b⟩
            · split_ifs <;> simp <;> omega
            · split_ifs with h
              · rw [Option.isNone_iff_eq_none] at h
                rw [h] at hs
                simp at hs
              · simp
          · rcases hp0mem with hp | ⟨hfalse, -⟩ | ⟨-, hpb⟩
            · exact ⟨p0, Or.inl (by simp [List.mem_append, hp]), by omega, by omega, hp0res⟩
            · exact absurd hfalse (by simp)
            · rw [hpb] at hp0res
              rcases hrbS : rb with _ | rb0
              · exact ⟨b, Or.inl (by simp [List.mem_append, hrbS]), by omega, le_refl b, hp0res⟩
              · exact ⟨b, Or.inr (Or.inr ⟨by simp [hrbS], rfl⟩), by omega, le_refl b, hp0res⟩
          · intro p hp
            simp only [List.mem_append] at hp
            rcases hp with (hp | hp) | hp
            · split_ifs at hp <;> simp at hp
              subst hp
              have := Hmemob rfl
              omega
            · split_ifs at hp <;> simp at hp
              subst hp
              exact Hmemob rfl
            · exact Hmin p hp
          · intro _
            have := Hmemob rfl
            omega
          · intro _
            exact Hmemob rfl

theorem gmsTrace_fuel_swap {α : Type} (fuel : Nat) (a b : Int) (compute : Int → Nat × α)
    (ra rb : Option (Nat × α)) (h : a > b) :
    gmsTrace_fuel (fuel + 1) a b compute ra rb = gmsTrace_fuel fuel b a compute rb ra := by
  simp only [gmsTrace_fuel]
  rw [if_pos h]

/-- On a one-point range the minimizer returns the single evaluation. -/
theorem greedy_minimum_search_self {α : Type} (a : Int) (compute : Int → Nat × α) :
    greedy_minimum_search a a compute none none = compute a := by
  unfold greedy_minimum_search
  rw [show searchFuel a a = 1 + 1 from by simp [searchFuel]]
  simp only [greedy_minimum_search_fuel]
  rw [if_neg (by omega : ¬a > a)]
  simp

/-- On a two-point range the minimizer returns the cheaper endpoint
evaluation (ties go to the upper endpoint). -/
theorem greedy_minimum_search_adj {α : Type} (a : Int) (compute : Int → Nat × α) :
    greedy_minimum_search a (a + 1) compute none none =
      if (compute a).1 < (compute (a + 1)).1 then compute a else compute (a + 1) := by
  unfold greedy_minimum_search
  rw [show searchFuel a (a + 1) = 2 + 1 from by unfold searchFuel; omega]
  simp only [greedy_minimum_search_fuel]
  rw [if_neg (by omega : ¬a > a + 1), if_neg (by omega : ¬a = a + 1)]
  simp

/-- C7: the bisecting minimizer evaluates the cost function only at
positions inside `[min(a,b), max(a,b)]`, never twice at the same position,
and returns the evaluation of one of the visited positions whose cost is
minimal among all evaluations; a range of length zero returns the single
endpoint evaluation and a range of length one returns the cheaper of the two
endpoint evaluations. The trace is computed by the instrumented copy
`gmsTrace`, whose value component coincides with `greedy_minimum_search`. -/
theorem C7_greedy_minimum_search (α : Type) (compute : Int → Nat × α) (a b : Int) :
    (gmsTrace a b compute none none).1 = greedy_minimum_search a b compute none none ∧
      (∀ p ∈ (gmsTrace a b compute none none).2, min a b ≤ p ∧ p ≤ max a b) ∧
      (gmsTrace a b compute none none).2.Nodup ∧
      (∃ p ∈ (gmsTrace a b compute none none).2,
        (gmsTrace a b compute none none).1 = compute p) ∧
      (∀ p ∈ (gmsTrace a b compute none none).2,
        ((gmsTrace a b compute none none).1).1 ≤ (compute p).1) ∧
      greedy_minimum_search a a compute none none = compute a ∧
      greedy_minimum_search a (a + 1) compute none none =
        (if (compute a).1 < (compute (a + 1)).1 then compute a else compute (a + 1)) := by
  have hfst : ∀ (x y : Int) (ra rb : Option (Nat × α)),
      (gmsTrace x y compute ra rb).1 = greedy_minimum_search x y compute ra rb :=
    fun x y ra rb => gmsTrace_fuel_fst (searchFuel x y) x y compute ra rb
  have key : (∀ p ∈ (gmsTrace a b compute none none).2, min a b ≤ p ∧ p ≤ max a b) ∧
      (gmsTrace a b compute none none).2.Nodup ∧
      (∃ p ∈ (gmsTrace a b compute none none).2,
        (gmsTrace a b compute none none).1 = compute p) ∧
      (∀ p ∈ (gmsTrace a b compute none none).2,
        ((gmsTrace a b compute none none).1).1 ≤ (compute p).1) := by
    by_cases hab : a ≤ b
    · rcases hrt : gmsTrace a b compute none none with ⟨res, tr⟩
      obtain ⟨Hbnd, Hnd, -, -, ⟨p0, hp0mem, hp0a, hp0b, hp0res⟩, Hmin, -, -⟩ :=
        gms_invariant compute (searchFuel a b) a b none none res tr hab
          (by unfold searchFuel; omega)
          (fun r hr => by simp at hr) (fun r hr => by simp at hr) hrt
      have hminab : min a b = a := by omega
      have hmaxab : max a b = b := by omega
      rw [hminab, hmaxab]
      refine ⟨Hbnd, Hnd, ?_, Hmin⟩
      rcases hp0mem with hp | ⟨hfalse, -⟩ | ⟨hfalse, -⟩
      · exact ⟨p0, hp, hp0res⟩
      · exact absurd hfalse (by simp)
      · exact absurd hfalse (by simp)
    · have hswap : gmsTrace a b compute none none =
          gmsTrace_fuel ((max a b - min a b).toNat + 1) b a compute none none :=
        gmsTrace_fuel_swap ((max a b - min a b).toNat + 1) a b compute none none (by omega)
      rcases hrt : gmsTrace_fuel ((max a b - min a b).toNat + 1) b a compute none none
        with ⟨res, tr⟩
      obtain ⟨Hbnd, Hnd, -, -, ⟨p0, hp0mem, hp0a, hp0b, hp0res⟩, Hmin, -, -⟩ :=
        gms_invariant compute ((max a b - min a b).toNat + 1) b a none none res tr
          (by omega) (by omega)
          (fun r hr => by simp at hr) (fun r hr => by simp at hr) hrt
      rw [hswap, hrt]
      have hminab : min a b = b := by omega
      have hmaxab : max a b = a := by omega
      rw [hminab, hmaxab]
      refine ⟨Hbnd, Hnd, ?_, Hmin⟩
      rcases hp0mem with hp | ⟨hfalse, -⟩ | ⟨hfalse, -⟩
      · exact ⟨p0, hp, hp0res⟩
      · exact absurd hfalse (by simp)
      · exact absurd hfalse (by simp)
  exact ⟨hfst a b none none, key.1, key.2.1, key.2.2.1, key.2.2.2,
    greedy_minimum_search_self a compute, greedy_minimum_search_adj a compute⟩

/-- C7 (witness): the properties evaluated for the concrete cost function
`p ↦ |p - 7|` on the range `[0, 10]`. -/
theorem C7_witness :
    ((gmsTrace 0 10 (fun p => ((p - 7).natAbs, p)) none none).1 =
        greedy_minimum_search 0 10 (fun p => ((p - 7).natAbs, p)) none none ∧
      (∀ p ∈ (gmsTrace 0 10 (fun p => ((p - 7).natAbs, p)) none none).2,
        min (0 : Int) 10 ≤ p ∧ p ≤ max (0 : Int) 10) ∧
      (gmsTrace 0 10 (fun p => ((p - 7).natAbs, p)) none none).2.Nodup ∧
      (∃ p ∈ (gmsTrace 0 10 (fun p => ((p - 7).natAbs, p)) none none).2,
        (gmsTrace 0 10 (fun p => ((p - 7).natAbs, p)) none none).1 =
          (fun p : Int => ((p - 7).natAbs, p)) p) ∧
      (∀ p ∈ (gmsTrace 0 10 (fun p => ((p - 7).natAbs, p)) none none).2,
        ((gmsTrace 0 10 (fun p => ((p - 7).natAbs, p)) none none).1).1 ≤
          ((fun p : Int => ((p - 7).natAbs, p)) p).1) ∧
      greedy_minimum_search 0 0 (fun p => ((p - 7).natAbs, p)) none none =
        (fun p : Int => ((p - 7).natAbs, p)) 0 ∧
      greedy_minimum_search 0 (0 + 1) (fun p => ((p - 7).natAbs, p)) none none =
        (if ((fun p : Int => ((p - 7).natAbs, p)) 0).1 <
              ((fun p : Int => ((p - 7).natAbs, p)) (0 + 1)).1
          then (fun p : Int => ((p - 7).natAbs, p)) 0
          else (fun p : Int => ((p - 7).natAbs, p)) (0 + 1))) :=
  C7_greedy_minimum_search Int (fun p => ((p - 7).natAbs, p)) 0 10

/-! ## Lemmas: stable descending sort, deduplication, the candidate walk -/

theorem mem_insertDesc {α : Type} (key : α → Nat) (x y : α) :
    ∀ l : List α, y ∈ insertDesc key x l ↔ y = x ∨ y ∈ l := by
  intro l
  induction l with
  | nil => simp [insertDesc]
  | cons z zs ih =>
    simp only [insertDesc]
    split_ifs
    · simp [List.mem_cons]
    · simp only [List.mem_cons, ih]
      tauto

theorem mem_isortDesc {α : Type} (key : α → Nat) (y : α) :
    ∀ l : List α, y ∈ isortDesc key l ↔ y ∈ l := by
  intro l
  induction l with
  | nil => simp [isortDesc]
  | cons z zs ih => simp [isortDesc, mem_insertDesc, ih]

theorem insertDesc_sorted {α : Type} (key : α → Nat) (x : α) :
    ∀ l : List α, List.Pairwise (fun u v => key v ≤ key u) l →
      List.Pairwise (fun u v => key v ≤ key u) (insertDesc key x l) := by
  intro l
  induction l with
  | nil => intro _; simp [insertDesc]
  | cons z zs ih =>
    intro hl
    rw [List.pairwise_cons] at hl
    obtain ⟨hz, hzs⟩ := hl
    simp only [insertDesc]
    split_ifs with h
    · rw [List.pairwise_cons]
      refine ⟨?_, by rw [List.pairwise_cons]; exact ⟨hz, hzs⟩⟩
      intro u hu
      rcases List.mem_cons.mp hu with rfl | hu
      · exact h
      · exact le_trans (hz u hu) h
    · rw [List.pairwise_cons]
      refine ⟨?_, ih hzs⟩
      intro u hu
      rcases (mem_insertDesc key x u zs).mp hu with rfl | hu
      · omega
      · exact hz u hu

theorem isortDesc_sorted {α : Type} (key : α → Nat) :
    ∀ l : List α, List.Pairwise (fun u v => key v ≤ key u) (isortDesc key l) := by
  intro l
  induction l with
  | nil => simp [isortDesc]
  | cons z zs ih => exact insertDesc_sorted key z _ ih

theorem dedupAux_subset (x : Nat) : ∀ (l seen : List Nat), x ∈ dedupAux seen l → x ∈ l := by
  intro l
  induction l with
  | nil => intro seen h; simp [dedupAux] at h
  | cons z zs ih =>
    intro seen h
    simp only [dedupAux] at h
    split_ifs at h
    · exact List.mem_cons_of_mem z (ih seen h)
    · rcases List.mem_cons.mp h with rfl | h
      · exact List.mem_cons_self x zs
      · exact List.mem_cons_of_mem z (ih (z :: seen) h)

/-- Every candidate window has at least one vote. -/
theorem candidateWindows_count_pos (text query : List Char) (start stop : Int) (w : Nat)
    (h : w ∈ candidateWindows text query start stop) :
    1 ≤ voteCount text query start stop w := by
  unfold candidateWindows at h
  rw [mem_isortDesc] at h
  have hmem : w ∈ windowHits text query start stop := dedupAux_subset w _ [] h
  unfold voteCount
  have := List.count_pos_iff.mpr hmem
  omega

/-- The candidate ranking of `find_best` is sorted by vote count,
descending. -/
theorem candidateWindows_sorted (text query : List Char) (start stop : Int) :
    List.Pairwise (fun u v => voteCount text query start stop v ≤ voteCount text query start stop u)
      (candidateWindows text query start stop) :=
  isortDesc_sorted _ _

/-- The walked candidates are a prefix of the candidate list. -/
theorem walkedList_take (cnt : Nat → Nat) :
    ∀ (l : List Nat) (last : Option Nat),
      walkedList cnt l last = l.take (walkedList cnt l last).length := by
  intro l
  induction l with
  | nil => intro last; simp [walkedList]
  | cons w rest ih =>
    intro last
    simp only [walkedList]
    split_ifs
    · simp
    · simp only [List.length_cons, List.take_succ_cons]
      exact congrArg _ (ih (some (cnt w)))

theorem walkedList_length_le (cnt : Nat → Nat) :
    ∀ (l : List Nat) (last : Option Nat), (walkedList cnt l last).length ≤ l.length := by
  intro l
  induction l with
  | nil => intro last; simp [walkedList]
  | cons w rest ih =>
    intro last
    simp only [walkedList]
    split_ifs
    · simp
    · simp only [List.length_cons]
      exact Nat.succ_le_succ (ih (some (cnt w)))

theorem walkedList_head (cnt : Nat → Nat) (l : List Nat) (last : Option Nat) (w2 : Nat)
    (h : (walkedList cnt l last).head? = some w2) : breakCond last (cnt w2) = false := by
  cases l with
  | nil => simp [walkedList] at h
  | cons w rest =>
    simp only [walkedList] at h
    split_ifs at h with hb
    · simp at h
    · simp only [List.head?_cons, Option.some.injEq] at h
      subst h
      simp only [Bool.not_eq_true] at hb
      exact hb

/-- No adjacent pair of walked candidates has a vote drop below 80%. -/
theorem walkedList_chain (cnt : Nat → Nat) :
    ∀ (l : List Nat) (last : Option Nat),
      List.Chain' (fun u v => 4 * cnt u ≤ 5 * cnt v) (walkedList cnt l last) := by
  intro l
  induction l with
  | nil => intro last; simp [walkedList]
  | cons w rest ih =>
    intro last
    simp only [walkedList]
    split_ifs with hb
    · simp
    · rw [List.chain'_cons']
      refine ⟨?_, ih (some (cnt w))⟩
      intro y hy
      have := walkedList_head cnt rest (some (cnt w)) y hy
      simp only [breakCond, decide_eq_false_iff_not] at this
      omega

/-- If the walk stopped before exhausting the candidate list, the next
candidate's vote count dropped below 80% of the last walked one's (or the
very first candidate had a zero count). -/
theorem walkedList_maximal (cnt : Nat → Nat) :
    ∀ (l : List Nat) (last : Option Nat),
      (walkedList cnt l last).length < l.length →
      ∃ w rest2, l = walkedList cnt l last ++ w :: rest2 ∧
        ((walkedList cnt l last = [] ∧ breakCond last (cnt w) = true) ∨
          (∃ u, (walkedList cnt l last).getLast? = some u ∧ 5 * cnt w < 4 * cnt u)) := by
  intro l
  induction l with
  | nil => intro last h; simp [walkedList] at h
  | cons w rest ih =>
    intro last h
    by_cases hb : breakCond last (cnt w) = true
    · refine ⟨w, rest, ?_, Or.inl ⟨?_, hb⟩⟩ <;> simp [walkedList, hb]
    · have hb2 : breakCond last (cnt w) = false := by
        simpa using hb
      simp only [walkedList, hb2, Bool.false_eq_true, if_false, List.length_cons] at h ⊢
      have hlen : (walkedList cnt rest (some (cnt w))).length < rest.length := by omega
      obtain ⟨w2, rest2, heq, hstop⟩ := ih (some (cnt w)) hlen
      refine ⟨w2, rest2, by rw [List.cons_append, ← heq], ?_⟩
      rcases hstop with ⟨hnil, hbrk⟩ | ⟨u, hu, hlt⟩
      · right
        refine ⟨w, ?_, ?_⟩
        · rw [hnil]
          simp
        · simp only [breakCond, decide_eq_true_eq] at hbrk
          exact hbrk
      · right
        have hne : walkedList cnt rest (some (cnt w)) ≠ [] := by
          intro hcon
          rw [hcon] at hu
          simp at hu
        obtain ⟨y, ys, hys⟩ := List.exists_cons_of_ne_nil hne
        refine ⟨u, ?_, hlt⟩
        rw [hys] at hu ⊢
        rw [List.getLast?_cons_cons]
        exact hu

/-! ## Lemmas: first minimum and the best-result fold -/

theorem firstMin_none : ∀ rs : List (Nat × (Int × Int)), firstMin rs = none ↔ rs = [] := by
  intro rs
  cases rs with
  | nil => simp [firstMin]
  | cons r rest =>
    simp only [firstMin]
    constructor
    · intro h
      rcases hm : firstMin rest with _ | m <;> simp only [hm] at h
      · simp at h
      · split_ifs at h <;> simp at h
    · intro h
      simp at h

theorem firstMin_some : ∀ (rs : List (Nat × (Int × Int))) (m : Nat × (Int × Int)),
    firstMin rs = some m →
    m ∈ rs ∧ (∀ x ∈ rs, m.1 ≤ x.1) ∧
      ∃ pre suf, rs = pre ++ m :: suf ∧ ∀ x ∈ pre, m.1 < x.1 := by
  intro rs
  induction rs with
  | nil => intro m h; simp [firstMin] at h
  | cons r rest ih =>
    intro m h
    simp only [firstMin] at h
    rcases hm : firstMin rest with _ | m0 <;> simp only [hm] at h
    · have hrest : rest = [] := (firstMin_none rest).mp hm
      subst hrest
      simp only [Option.some.injEq] at h
      subst h
      exact ⟨by simp, by simp, [], [], rfl, by simp⟩
    · obtain ⟨hmem0, hmin0, pre0, suf0, hsplit0, hpre0⟩ := ih m0 hm
      split_ifs at h with hc <;> simp only [Option.some.injEq] at h <;> subst h
      · refine ⟨by simp, ?_, [], rest, rfl, by simp⟩
        intro x hx
        rcases List.mem_cons.mp hx with rfl | hx
        · exact le_refl _
        · exact le_trans hc (hmin0 x hx)
      · refine ⟨List.mem_cons_of_mem r hmem0, ?_, r :: pre0, suf0,
          by rw [hsplit0, List.cons_append], ?_⟩
        · intro x hx
          rcases List.mem_cons.mp hx with rfl | hx
          · omega
          · exact hmin0 x hx
        · intro x hx
          rcases List.mem_cons.mp hx with rfl | hx
          · omega
          · exact hpre0 x hx

/-- The candidate walk of `find_best` is a fold of the best-so-far update
over the refinements of the walked candidates. -/
theorem walkLoop_foldl (text query : List Char) (start stop : Int) (ws : Nat)
    (cnt : Nat → Nat) :
    ∀ (l : List Nat) (last : Option Nat) (best : Option (Int × Int) × Int),
      walkLoop text query start stop ws cnt l last best =
        List.foldl bestStep best
          ((walkedList cnt l last).map (fun w => refineOne text query start stop ws w)) := by
  intro l
  induction l with
  | nil => intro last best; rfl
  | cons w rest ih =>
    intro last best
    by_cases hbr : breakCond last (cnt w) = true
    · simp [walkLoop, walkedList, hbr]
    · have hbr2 : breakCond last (cnt w) = false := by simpa using hbr
      simp only [walkLoop, walkedList, hbr2, Bool.false_eq_true, if_false, List.map_cons,
        List.foldl_cons]
      rw [ih (some (cnt w))]
      rfl

/-- Folding the best-so-far update from the initial `(None, -1)` state (or
from an already-found best pair) keeps the first minimum by distance. -/
theorem foldl_bestStep_firstMin :
    ∀ rs : List (Nat × (Int × Int)),
      (List.foldl bestStep (none, -1) rs =
        (firstMin rs).elim (none, -1) (fun m => (some m.2, (m.1 : Int)))) ∧
      (∀ (iv0 : Int × Int) (d0 : Nat),
        List.foldl bestStep (some iv0, (d0 : Int)) rs =
          (firstMin rs).elim (some iv0, (d0 : Int))
            (fun m => if m.1 < d0 then (some m.2, (m.1 : Int)) else (some iv0, (d0 : Int)))) := by
  intro rs
  induction rs with
  | nil => exact ⟨rfl, fun iv0 d0 => rfl⟩
  | cons r rest ih =>
    obtain ⟨ih1, ih2⟩ := ih
    constructor
    · simp only [List.foldl_cons]
      have hstep : bestStep (none, -1) r = (some r.2, (r.1 : Int)) := by
        simp [bestStep]
      rw [hstep, ih2 r.2 r.1]
      rcases hfm : firstMin rest with _ | m
      · simp [firstMin, hfm]
      · simp only [firstMin, hfm, Option.elim_some]
        split_ifs <;> simp only [Option.elim_some] <;> first | (exfalso; omega) | rfl
    · intro iv0 d0
      simp only [List.foldl_cons]
      by_cases hc : r.1 < d0
      · have hstep : bestStep (some iv0, (d0 : Int)) r = (some r.2, (r.1 : Int)) := by
          simp only [bestStep]
          rw [if_pos (Or.inr (by exact_mod_cast hc))]
        rw [hstep, ih2 r.2 r.1]
        rcases hfm : firstMin rest with _ | m
        · simp only [firstMin, hfm, Option.elim_some, Option.elim_none]
          rw [if_pos hc]
        · simp only [firstMin, hfm, Option.elim_some]
          split_ifs <;> simp only [Option.elim_some] <;> split_ifs <;>
            first | (exfalso; omega) | rfl
      · have hstep : bestStep (some iv0, (d0 : Int)) r = (some iv0, (d0 : Int)) := by
          simp only [bestStep]
          rw [if_neg]
          simp only [not_or]
          refine ⟨by simp, ?_⟩
          intro hcon
          exact hc (by exact_mod_cast hcon)
        rw [hstep, ih2 iv0 d0]
        rcases hfm : firstMin rest with _ | m
        · simp only [firstMin, hfm, Option.elim_some, Option.elim_none]
          rw [if_neg hc]
        · simp only [firstMin, hfm, Option.elim_some]
          split_ifs <;> simp only [Option.elim_some] <;> split_ifs <;>
            first | (exfalso; omega) | rfl

/-- `find_best` in terms of the walked candidates and the first minimum of
their refinements. -/
theorem find_best_eq (text query : List Char) (start stop0 threshold : Int) :
    find_best text query start stop0 threshold =
      (firstMin ((walkedList
          (voteCount text query start (if stop0 < 0 then (text.length : Int) else stop0))
          ((candidateWindows text query start
            (if stop0 < 0 then (text.length : Int) else stop0)).take 10) none).map
          (fun w => refineOne text query start
            (if stop0 < 0 then (text.length : Int) else stop0) query.length w))).elim
        (none, -1) (fun m => (some m.2, (m.1 : Int))) := by
  unfold find_best
  rw [walkLoop_foldl]
  exact (foldl_bestStep_firstMin _).1

/-- C9: a query sharing no trigram with the searchable range produces no
window votes, and `find_best` returns the null result `(None, -1)` as an
ordinary value. -/
theorem C9_no_shared_trigram (text query : List Char) (start stop0 threshold : Int)
    (h : windowHits text query start (if stop0 < 0 then (text.length : Int) else stop0) = []) :
    find_best text query start stop0 threshold = (none, -1) := by
  rw [find_best_eq]
  have hc : candidateWindows text query start
      (if stop0 < 0 then (text.length : Int) else stop0) = [] := by
    unfold candidateWindows
    rw [h]
    rfl
  rw [hc]
  rfl

/-- C9 (witness): the reference text `"aaaa"` and the query `"xyz"` share no
trigram, and `find_best` returns `(None, -1)`. -/
theorem C9_witness :
    windowHits ("aaaa".toList) ("xyz".toList) 0
        (if (-1 : Int) < 0 then ((("aaaa".toList)).length : Int) else -1) = [] ∧
      find_best ("aaaa".toList) ("xyz".toList) 0 (-1) 0 = (none, -1) := by
  refine ⟨by rfl, C9_no_shared_trigram ("aaaa".toList) ("xyz".toList) 0 (-1) 0 (by rfl)⟩

/-- C2: in `find_best`, the candidate windows are ranked by vote count
descending; the walked candidates are a prefix of the first ten of them;
adjacent walked candidates never drop below 80% of the previous vote count;
if the walk stops early, the next candidate's count dropped below 80% of the
last walked one's; and the returned result is the first minimum, by refined
distance, of the walked candidates' refinements (so the globally lowest
refined distance wins regardless of vote rank and distance ties keep the
first-found candidate). -/
theorem C2_candidate_walk (text query : List Char) (start stop0 threshold : Int)
    {stop : Int} {cnt : Nat → Nat} {cands walked : List Nat}
    {refined : List (Nat × (Int × Int))}
    (hstop : stop = if stop0 < 0 then (text.length : Int) else stop0)
    (hcnt : cnt = voteCount text query start stop)
    (hcands : cands = candidateWindows text query start stop)
    (hwalked : walked = walkedList cnt (cands.take 10) none)
    (hrefined : refined =
      walked.map (fun w => refineOne text query start stop query.length w)) :
    List.Pairwise (fun u v => cnt v ≤ cnt u) cands ∧
      walked = (cands.take 10).take walked.length ∧
      walked.length ≤ 10 ∧
      List.Chain' (fun u v => 4 * cnt u ≤ 5 * cnt v) walked ∧
      (walked.length < (cands.take 10).length →
        ∃ w rest2 u, cands.take 10 = walked ++ w :: rest2 ∧
          walked.getLast? = some u ∧ 5 * cnt w < 4 * cnt u) ∧
      find_best text query start stop0 threshold =
        (firstMin refined).elim (none, -1) (fun m => (some m.2, (m.1 : Int))) ∧
      (firstMin refined = none → walked = []) ∧
      (∀ m, firstMin refined = some m →
        m ∈ refined ∧ (∀ x ∈ refined, m.1 ≤ x.1) ∧
          ∃ pre suf, refined = pre ++ m :: suf ∧ ∀ x ∈ pre, m.1 < x.1) := by
  subst hrefined
  subst hwalked
  subst hcands
  subst hcnt
  subst hstop
  set stop := if stop0 < 0 then (text.length : Int) else stop0 with hstop
  set cnt := voteCount text query start stop with hcntdef
  set cands := candidateWindows text query start stop with hcandsdef
  refine ⟨candidateWindows_sorted text query start stop,
    walkedList_take cnt (cands.take 10) none, ?_,
    walkedList_chain cnt (cands.take 10) none, ?_,
    find_best_eq text query start stop0 threshold, ?_, ?_⟩
  · show (walkedList cnt (cands.take 10) none).length ≤ 10
    have h1 := walkedList_length_le cnt (cands.take 10) none
    have h2 : (cands.take 10).length ≤ 10 := by
      rw [List.length_take]
      omega
    omega
  · intro hlen
    obtain ⟨w, rest2, heq, hstop⟩ := walkedList_maximal cnt (cands.take 10) none hlen
    rcases hstop with ⟨hnil, hbrk⟩ | ⟨u, hu, hlt⟩
    · exfalso
      have hwmem : w ∈ cands.take 10 := by
        rw [heq]
        simp
      have hwc : w ∈ candidateWindows text query start stop := List.take_subset 10 cands hwmem
      have := candidateWindows_count_pos text query start stop w hwc
      have hcnt : cnt w = voteCount text query start stop w := rfl
      simp only [breakCond, decide_eq_true_eq] at hbrk
      omega
    · exact ⟨w, rest2, u, heq, hu, hlt⟩
  · intro h
    have hre := (firstMin_none _).mp h
    exact List.map_eq_nil_iff.mp hre
  · intro m hm
    exact firstMin_some _ m hm

/-- C2 (witness): the walk properties evaluated for the reference text
`"the quick brown fox jumps over the lazy dog"` and the typo query
`"quikc brwn fox"`. -/
theorem C2_witness :
    let text := "the quick brown fox jumps over the lazy dog".toList
    let query := "quikc brwn fox".toList
    let stop := if (-1 : Int) < 0 then (text.length : Int) else -1
    let cnt := voteCount text query 0 stop
    let cands := candidateWindows text query 0 stop
    let walked := walkedList cnt (cands.take 10) none
    let refined := walked.map (fun w => refineOne text query 0 stop query.length w)
    List.Pairwise (fun u v => cnt v ≤ cnt u) cands ∧
      walked = (cands.take 10).take walked.length ∧
      walked.length ≤ 10 ∧
      List.Chain' (fun u v => 4 * cnt u ≤ 5 * cnt v) walked ∧
      (walked.length < (cands.take 10).length →
        ∃ w rest2 u, cands.take 10 = walked ++ w :: rest2 ∧
          walked.getLast? = some u ∧ 5 * cnt w < 4 * cnt u) ∧
      find_best text query 0 (-1) 0 =
        (firstMin refined).elim (none, -1) (fun m => (some m.2, (m.1 : Int))) ∧
      (firstMin refined = none → walked = []) ∧
      (∀ m, firstMin refined = some m →
        m ∈ refined ∧ (∀ x ∈ refined, m.1 ≤ x.1) ∧
          ∃ pre suf, refined = pre ++ m :: suf ∧ ∀ x ∈ pre, m.1 < x.1) :=
  C2_candidate_walk ("the quick brown fox jumps over the lazy dog".toList)
    ("quikc brwn fox".toList) 0 (-1) 0 rfl rfl rfl rfl rfl

/-! ## Claims C3, C8, C4, C5 -/

/-- C3 (counterexample): in boundary snapping the claim says ties favour the
centre token, but on the text `"aa bb"` with centre token `"bb"` and query
token `"ab"`, the left sibling `"aa"` ties the centre at distance 1 and the
left sibling `(0, 2)` is returned, not the centre `(3, 5)`. -/
theorem C3_counterexample :
    find_best_neighbour_token ("aa bb".toList) ("ab".toList) (3, 5) = (0, 2) ∧
      levenshtein
        (get_interval_text ("aa bb".toList) (get_token_sibling ("aa bb".toList) (3, 5) (-1)))
        ("ab".toList) =
        levenshtein (get_interval_text ("aa bb".toList) ((3, 5) : Int × Int)) ("ab".toList) ∧
      ((0, 2) : Int × Int) ≠ (3, 5) := by
  refine ⟨rfl, rfl, by decide⟩

/-- C3 (amended): `_find_best_neighbour_token` keeps the token with the
strictly lowest edit distance against the query's boundary token, and on
ties it favours the earliest token in the order left sibling, centre,
right sibling (the stable sort places the left sibling first), not the
centre. -/
theorem C3_amended (text q : List Char) (c : Int × Int) :
    find_best_neighbour_token text q c =
      if levenshtein (get_interval_text text (get_token_sibling text c (-1))) q ≤
           levenshtein (get_interval_text text c) q ∧
         levenshtein (get_interval_text text (get_token_sibling text c (-1))) q ≤
           levenshtein (get_interval_text text (get_token_sibling text c 1)) q
      then get_token_sibling text c (-1)
      else if levenshtein (get_interval_text text c) q ≤
                levenshtein (get_interval_text text (get_token_sibling text c 1)) q
      then c
      else get_token_sibling text c 1 :=
  neighbour_eq text q c

/-- C8 (counterexample): token lookup can leave `[0, len(text)]` in two
ways. At a position outside a non-empty text it returns the empty interval
at that out-of-range position: on the 2-character text `"ab"`, position 5
yields `(5, 5)`. And on the empty text the sentinels `start = len = 0`,
`end = 0` pass the final `start <= end` test, so position 0 yields `(0, 1)`
with end index `1 > len('') = 0`. -/
theorem C8_counterexample :
    (get_token_interval ("ab".toList) 5 = (5, 5) ∧
      ¬((get_token_interval ("ab".toList) 5).2 ≤ (("ab".toList).length : Int))) ∧
    (get_token_interval ([] : List Char) 0 = (0, 1) ∧
      ¬((get_token_interval ([] : List Char) 0).2 ≤
          ((([] : List Char).length : Nat) : Int))) := by
  refine ⟨⟨rfl, by decide⟩, by decide, by decide⟩

/-- C8 (amended): every interval produced by the interval utilities and the
refinement step satisfies `start ≤ end`; the indices of a token lookup are
moreover within `[0, len(text)]` whenever the text is non-empty and the
queried position is within `[0, len(text)]`. Out-of-range queries on a
non-empty text return the empty interval `(at, at)` at the out-of-range
position, and on the empty text the sentinel logic returns `(0, 1)` for
every position (end index `1 > len = 0`), so sibling lookup and refinement
may produce out-of-range indices. -/
theorem C8_amended :
    (∀ (text : List Char) (at0 : Int),
        (get_token_interval text at0).1 ≤ (get_token_interval text at0).2) ∧
    (∀ at0 : Int, get_token_interval ([] : List Char) at0 = (0, 1)) ∧
    (∀ (text : List Char) (at0 : Int), text ≠ [] → 0 ≤ at0 →
        at0 ≤ (text.length : Int) →
        0 ≤ (get_token_interval text at0).1 ∧
          (get_token_interval text at0).2 ≤ (text.length : Int)) ∧
    (∀ (text : List Char) (iv : Int × Int) (d : Int),
        (get_token_sibling text iv d).1 ≤ (get_token_sibling text iv d).2) ∧
    (∀ i1 i2 : Int × Int, i1.1 ≤ i1.2 → i2.1 ≤ i2.2 →
        (combine_intervals i1 i2).1 ≤ (combine_intervals i1 i2).2) ∧
    (∀ (text query : List Char) (a b : Int),
        (find_best_in_interval text query a b).2.1 ≤
          (find_best_in_interval text query a b).2.2) :=
  ⟨get_token_interval_le, get_token_interval_nil, get_token_interval_bounds,
    get_token_sibling_le, combine_intervals_le, find_best_in_interval_le⟩

/-- C8 (witness): the parts of the amended claim evaluated at concrete
inputs, with the non-emptiness and range hypotheses discharged by
computation. -/
theorem C8_witness :
    (get_token_interval ("ab c".toList) 1).1 ≤ (get_token_interval ("ab c".toList) 1).2 ∧
      get_token_interval ([] : List Char) 7 = (0, 1) ∧
      (0 ≤ (get_token_interval ("ab c".toList) 1).1 ∧
        (get_token_interval ("ab c".toList) 1).2 ≤ (("ab c".toList).length : Int)) ∧
      (combine_intervals (0, 2) (3, 5)).1 ≤ (combine_intervals (0, 2) (3, 5)).2 ∧
      (find_best_in_interval ("ab cd".toList) ("ab".toList) 0 3).2.1 ≤
        (find_best_in_interval ("ab cd".toList) ("ab".toList) 0 3).2.2 :=
  ⟨C8_amended.1 ("ab c".toList) 1,
    C8_amended.2.1 7,
    C8_amended.2.2.1 ("ab c".toList) 1 (by decide) (by decide) (by decide),
    C8_amended.2.2.2.2.1 (0, 2) (3, 5) (by decide) (by decide),
    C8_amended.2.2.2.2.2 ("ab cd".toList) ("ab".toList) 0 3⟩

/-- C4 (code bug): for a clean offset above the table length,
`get_original_offset` falls into its bare `except:` branch, prints the
lengths and implicitly returns `None` instead of failing loudly; and for a
negative offset it silently returns a wrapped-around table entry (a guessed
value). Evaluated on the offset table `[0, 1, 2]` at offsets `5` and `-1`. -/
theorem C4_theorem :
    get_original_offset [0, 1, 2] 5 = OffsetResult.printedNone ∧
      get_original_offset [0, 1, 2] (-1) = OffsetResult.val 2 := by
  refine ⟨rfl, rfl⟩

/-- C5 (counterexample): normalizing `"Hello---World!!"` with dash-to-space,
whitespace collapsing, lowercasing, and an oracle accepting lowercase
letters and space yields the offset table
`[0, 1, 2, 3, 4, 5, 8, 9, 10, 11, 12]` (the kept space maps to the first
dash, position 5), not the claimed `[0, 1, 2, 3, 4, 8, 9, 10, 11, 12, 13]`. -/
theorem C5_counterexample :
    (TextCleaner_clean ("Hello---World!!".toList)
        (fun c => decide (('a' ≤ c ∧ c ≤ 'z') ∨ c = ' ')) true true true).2 =
        [0, 1, 2, 3, 4, 5, 8, 9, 10, 11, 12] ∧
      (TextCleaner_clean ("Hello---World!!".toList)
        (fun c => decide (('a' ≤ c ∧ c ≤ 'z') ∨ c = ' ')) true true true).2 ≠
        [0, 1, 2, 3, 4, 8, 9, 10, 11, 12, 13] := by
  refine ⟨rfl, by decide⟩

/-- C5 (amended): the scenario of the claim with the offset table the code
actually produces: normalized text `"hello world"` and offset table
`[0, 1, 2, 3, 4, 5, 8, 9, 10, 11, 12]`. -/
theorem C5_amended :
    TextCleaner_clean ("Hello---World!!".toList)
        (fun c => decide (('a' ≤ c ∧ c ≤ 'z') ∨ c = ' ')) true true true =
      ("hello world".toList, [0, 1, 2, 3, 4, 5, 8, 9, 10, 11, 12]) := by
  rfl

/-! ### C1: exact substrings under `find_best` -/

/-- Slices with in-range `Nat` endpoints are plain `take`/`drop`. -/
theorem pySlice_natCast (text : List Char) (i j : Nat) (hij : i ≤ j)
    (hj : j ≤ text.length) :
    pySlice text (i : Int) (j : Int) = (text.take j).drop i := by
  have h1 : pyIndexNorm text.length (i : Int) = i := by
    unfold pyIndexNorm
    rw [if_neg (by omega)]
    omega
  have h2 : pyIndexNorm text.length (j : Int) = j := by
    unfold pyIndexNorm
    rw [if_neg (by omega)]
    omega
  unfold pySlice
  rw [h1, h2]

/-- The first component of `find_best_in_interval` is the levenshtein
distance of its own returned interval's slice against the query (the final
recomputation `best_distance = levenshtein(...)` of the source). -/
theorem find_best_in_interval_fst (text query : List Char) (a b : Int) :
    (find_best_in_interval text query a b).1 =
      levenshtein (pySlice text (find_best_in_interval text query a b).2.1
        (find_best_in_interval text query a b).2.2) query := by
  simp only [find_best_in_interval]

/-- An exact substring `text[i:j]` with `j - i ≥ 3`, searched over the full
text, casts at least one vote for the window `(i + 1) / (j - i)`: the window
of the padded-text occurrence of its first trigram (the padding shifts text
position `i` to occurrence `i + 1`). -/
theorem vote_window_nonzero (text : List Char) (i j : Nat)
    (h3 : i + 3 ≤ j) (hj : j ≤ text.length) :
    1 ≤ voteCount text (pySlice text (i : Int) (j : Int)) 0 (text.length : Int)
      ((i + 1) / (j - i)) := by
  have hslice : pySlice text (i : Int) (j : Int) = (text.take j).drop i :=
    pySlice_natCast text i j (by omega) hj
  set s := pySlice text (i : Int) (j : Int) with hs
  have hslen : s.length = j - i := by
    rw [hslice, List.length_drop, List.length_take]
    omega
  have htake : s.take 3 = (text.drop i).take 3 := by
    rw [hslice, List.drop_take, List.take_take]
    congr 1
    omega
  have hg : s.take 3 ∈ trigrams (padded s) := by
    unfold trigrams
    refine List.mem_map.mpr ⟨1, ?_, ?_⟩
    · rw [List.mem_range]
      have hplen : (padded s).length = s.length + 2 := by simp [padded]
      omega
    · show (s ++ [' ']).take 3 = s.take 3
      exact List.take_append_of_le_length (by omega)
  have hocc : (i + 1) ∈ occurrences text (s.take 3) := by
    unfold occurrences
    rw [List.mem_filter, List.mem_range]
    have hplen : (padded text).length = text.length + 2 := by simp [padded]
    refine ⟨by omega, ?_⟩
    simp only [decide_eq_true_eq]
    show ((text ++ [' ']).drop i).take 3 = s.take 3
    rw [List.drop_append_of_le_length (by omega)]
    rw [List.take_append_of_le_length (by rw [List.length_drop]; omega)]
    exact htake.symm
  have hwin : (i + 1) / (j - i) ∈ windowHits text s 0 (text.length : Int) := by
    unfold windowHits
    refine List.mem_flatMap.mpr ⟨s.take 3, hg, ?_⟩
    refine List.mem_map.mpr ⟨i + 1, ?_, ?_⟩
    · rw [List.mem_filter]
      refine ⟨hocc, ?_⟩
      simp only [decide_eq_true_eq]
      omega
    · show (i + 1) / s.length = (i + 1) / (j - i)
      rw [hslen]
  unfold voteCount
  have hpos := List.count_pos_iff.mpr hwin
  omega

/-- The distance returned by a successful `find_best` is the levenshtein
distance of the returned interval's slice against the query. -/
theorem find_best_some_dist (text query : List Char) (start stop0 threshold : Int)
    (iv : Int × Int) (d : Int)
    (hEq : find_best text query start stop0 threshold = (some iv, d)) :
    d = (levenshtein (pySlice text iv.1 iv.2) query : Int) := by
  rw [find_best_eq] at hEq
  rcases hfm : firstMin ((walkedList
      (voteCount text query start (if stop0 < 0 then (text.length : Int) else stop0))
      ((candidateWindows text query start
        (if stop0 < 0 then (text.length : Int) else stop0)).take 10) none).map
      (fun w => refineOne text query start
        (if stop0 < 0 then (text.length : Int) else stop0) query.length w)) with _ | m
  · rw [hfm] at hEq
    simp at hEq
  · rw [hfm] at hEq
    simp only [Option.elim_some] at hEq
    rw [Prod.mk.injEq] at hEq
    obtain ⟨h1, h2⟩ := hEq
    obtain ⟨hmem, -, -⟩ := firstMin_some _ m hfm
    obtain ⟨w, -, hwm⟩ := List.mem_map.mp hmem
    have hm1 : m.1 = levenshtein (pySlice text m.2.1 m.2.2) query := by
      rw [← hwm]
      exact find_best_in_interval_fst text query _ _
    injection h1 with h1
    rw [← h2, ← h1]
    exact_mod_cast hm1

/-- C1 counterexample: the exact substring `"ab c" = "ab cd"[0:4]` is found
with distance `1`, not `0` (token snapping widened the interval to the whole
text and the recomputed distance is against the widened slice); the exact
substring `"abcd" = "abcd abcd"[5:9]` yields the interval `[0, 4)`, which
does not contain `[5, 9)`; and for `s = "xyabcz"[2:5] = "abc"` (length 3)
the window containing `i = 2`, window `2 / 3 = 0`, receives zero votes (the
padding shifts the occurrence to `3`, voting for window `1`). -/
theorem C1_counterexample :
    (find_best ("ab cd".toList) ("ab c".toList) 0 (-1) 0 =
        (some ((0 : Int), (6 : Int)), (1 : Int)) ∧ (1 : Int) ≠ 0) ∧
    (find_best ("abcd abcd".toList) ("abcd".toList) 0 (-1) 0 =
        (some ((0 : Int), (4 : Int)), (0 : Int)) ∧
      ¬((0 : Int) ≤ 5 ∧ (9 : Int) ≤ 4)) ∧
    (pySlice ("xyabcz".toList) 2 5 = "abc".toList ∧
      voteCount ("xyabcz".toList) ("abc".toList) 0 (("xyabcz".toList).length : Int)
        (2 / 3) = 0) := by
  exact ⟨⟨by decide, by decide⟩, ⟨by decide, by decide⟩, by decide, by decide⟩

/-- C1 (amended): for an exact substring `text[i:j]` with `j - i ≥ 3`
searched over the full text, the window of the padded-text occurrence of its
first trigram, window `(i + 1) / (j - i)`, receives a non-zero vote; and
whenever `find_best` returns an interval at all, the returned distance is
exactly the levenshtein distance between the returned interval's slice and
the query (it is `0` only when the possibly widened slice matches exactly). -/
theorem C1_amended :
    (∀ (text : List Char) (i j : Nat), i + 3 ≤ j → j ≤ text.length →
      1 ≤ voteCount text (pySlice text (i : Int) (j : Int)) 0 (text.length : Int)
        ((i + 1) / (j - i))) ∧
    (∀ (text query : List Char) (start stop0 threshold : Int)
      (iv : Int × Int) (d : Int),
      find_best text query start stop0 threshold = (some iv, d) →
      d = (levenshtein (pySlice text iv.1 iv.2) query : Int)) :=
  ⟨fun text i j h3 hj => vote_window_nonzero text i j h3 hj,
    fun text query start stop0 threshold iv d h =>
      find_best_some_dist text query start stop0 threshold iv d h⟩

/-- Witness for the amended C1: the substring `"abcdef"[0:3]` votes for
window `1 / 3 = 0`, and the `"ab cd"`/`"ab c"` search returns distance `1`,
the levenshtein distance of the returned slice `[0, 6)` against the query. -/
theorem C1_witness :
    1 ≤ voteCount ("abcdef".toList) (pySlice ("abcdef".toList) 0 3) 0
        (("abcdef".toList).length : Int) 0 ∧
      (1 : Int) = (levenshtein (pySlice ("ab cd".toList) 0 6) ("ab c".toList) : Int) :=
  ⟨C1_amended.1 ("abcdef".toList) 0 3 (by decide) (by decide),
    C1_amended.2 ("ab cd".toList) ("ab c".toList) 0 (-1) 0 (0, 6) 1 (by decide)⟩

end DSAlign
